import Mathlib

/-!
Verification of the tiny-ts-mapper validation engine (src/schema/**).

This file gives a shallow embedding of the runtime validator:
JavaScript values are modelled by `Value`, the schema tree by `Schema`,
and the `_parse(value, path)` operation of every schema class by the
mutually recursive function `sparse`.  Synchronous/asynchronous duality
(`MaybePromise<T>`) is modelled by `MaybeProm`: `.sync o` is an immediate
outcome (a returned value or a synchronously thrown error) and `.async o`
is a returned promise together with the outcome it eventually settles to
(the engine is single-threaded and deterministic; settlement callbacks are
modelled as firing in attachment order, which is the order the code
attaches them in).  User-supplied functions (refine predicates, transform
functions, default-value suppliers) are modelled as pure Lean functions
that may "throw" arbitrary non-engine errors (`UserErr`); JavaScript
floating point numbers are modelled as `JsNum` (NaN, the infinities, or an
exact rational), which supports exactly the operations the validator
performs on numbers (comparison, integrality test).  Number-to-string
conversion in diagnostic messages is modelled by `jsNumToString`, and
`JSON.stringify` of an enum literal by surrounding double quotes.
-/

/-- JavaScript numbers as used by the validator: NaN, the two infinities,
or a finite value (modelled exactly as a rational). -/
inductive JsNum where
  | nan
  | inf
  | negInf
  | finite (q : Rat)
deriving DecidableEq

/-- `a < b` on JavaScript numbers (`NaN` compares false to everything). -/
def JsNum.jlt : JsNum → JsNum → Bool
  | .finite a, .finite b => decide (a < b)
  | .finite _, .inf => true
  | .negInf, .finite _ => true
  | .negInf, .inf => true
  | _, _ => false

/-- `Number.isInteger`. -/
def JsNum.isInt : JsNum → Bool
  | .finite q => q.den == 1
  | _ => false

/-- Rendering of a number inside a diagnostic message (template literal
interpolation); exact only for the integral values the messages use. -/
def jsNumToString : JsNum → String
  | .nan => "NaN"
  | .inf => "Infinity"
  | .negInf => "-Infinity"
  | .finite q => if q.den == 1 then toString q.num else toString q

/-- A path segment: an object key or an array index (core/type.ts `Path`). -/
inductive PathSeg where
  | str (s : String)
  | idx (n : Nat)
deriving DecidableEq

/-- core/type.ts: `Path = (string | number)[]`. -/
abbrev JPath := List PathSeg

/-- core/type.ts: the closed `IssueCode` enumeration. -/
inductive IssueCode where
  | invalid_type
  | too_small
  | too_big
  | invalid_string
  | invalid_enum
  | invalid_array
  | invalid_object
  | unrecognized_keys
  | custom
deriving DecidableEq

/-- core/type.ts: `Issue = { path, code, message }`. -/
structure Issue where
  path : JPath
  code : IssueCode
  message : String
deriving DecidableEq

/-- A JavaScript runtime value, as far as the validator observes it. -/
inductive Value where
  | vNull
  | vUndefined
  | vBool (b : Bool)
  | vNum (n : JsNum)
  | vStr (s : String)
  | vArr (items : List Value)
  | vObj (fields : List (String × Value))

/-- An error value that a validation step can raise.  `validation` is the
issue-carrying aggregate (core/error.ts `ValidationError`, whose `message`
is always the constructor default "Validation error"); `asyncParse` is the
engine's `AsyncParseError` misuse signal; `other` is any error raised by
user-supplied code, carrying its optional `.message` and its string
coercion `String(e)`. -/
inductive JsError where
  | validation (issues : List Issue)
  | asyncParse
  | other (msg : Option String) (rep : String)
deriving DecidableEq

/-- An error raised by user-supplied code (refine predicate, transform
function, default supplier): optional `.message` plus `String(e)`. -/
structure UserErr where
  msg : Option String
  rep : String
deriving DecidableEq

def UserErr.toJs (u : UserErr) : JsError := .other u.msg u.rep

/-- `(e as Error)?.message ?? String(e)` (used by `merge` and by the
transform-error wrapper). -/
def JsError.msgOrRep : JsError → String
  | .validation _ => "Validation error"
  | .asyncParse => "Encountered async validations; use parseAsync()"
  | .other m r => m.getD r

/-- `(e as Error)?.message` as an option (used by `_makeSafeResultError`,
whose fallback is the literal "Unknown error"). -/
def JsError.msgOpt : JsError → Option String
  | .validation _ => some "Validation error"
  | .asyncParse => some "Encountered async validations; use parseAsync()"
  | .other m _ => m

/-- The issues that `ValidationError.merge(err)` appends for `err`: the
issues of an aggregate, or one `custom` issue at the root path built from
the error's message. -/
def errToIssues : JsError → List Issue
  | .validation iss => iss
  | e => [⟨[], .custom, e.msgOrRep⟩]

/-- core/error.ts `ValidationError.merge`, on the issue lists. -/
def vmerge (agg : List Issue) (e : JsError) : List Issue :=
  agg ++ errToIssues e

/-- `MaybePromise<T>`: `.sync o` is an immediate outcome (returned value or
synchronously thrown error), `.async o` is a returned promise together
with the outcome it settles to. -/
inductive MaybeProm (α : Type) where
  | sync (a : α)
  | async (a : α)
deriving DecidableEq

/-- Outcome of one validation step: the parsed value or a raised error. -/
abbrev POutcome := Except JsError Value

/-- Result type of `_parse`. -/
abbrev PR := MaybeProm POutcome

/-- Promise chaining `p.then(f)`: the overall result of scheduling a step
after an already-asynchronous one is itself asynchronous. -/
def asAsync : PR → PR
  | .sync o => .async o
  | .async o => .async o

/-- core/utils.ts `pushPath`. -/
def pushPath (p : JPath) (seg : PathSeg) : JPath := p ++ [seg]

/-- A single quote character, for the `Unrecognized key: 'k'` message. -/
def squote : String := String.mk [Char.ofNat 39]

/-- JavaScript property read `record[key]` on an object: the value at the
key, or `undefined` when the key is absent. -/
def getField (fields : List (String × Value)) (k : String) : Value :=
  match fields.find? (fun p => p.1 == k) with
  | some p => p.2
  | none => .vUndefined

/-- JavaScript property assignment `output[k] = v`: overwrites in place if
the key exists, otherwise appends (preserving key insertion order). -/
def objAssign (o : List (String × Value)) (k : String) (v : Value) :
    List (String × Value) :=
  if o.any (fun p => p.1 == k) then
    o.map (fun p => if p.1 == k then (k, v) else p)
  else
    o ++ [(k, v)]

/-- First-occurrence deduplication of a key list (`new Set(Object.keys r)`
keeps each key once, in first-seen order). -/
def dedupKeys (seen : List String) : List String → List String
  | [] => []
  | k :: rest =>
    if k ∈ seen then dedupKeys seen rest
    else k :: dedupKeys (k :: seen) rest

/-- Per-child result inside the array/object composites: a successfully
parsed value, the `ERROR_SENTINEL` marker for an already-merged failure
(remembering the issues that were merged for it), or a still-pending
promise together with the outcome it settles to. -/
inductive ItemRes where
  | val (w : Value)
  | sent (iss : List Issue)
  | pend (o : POutcome)

/-- The `parseItem`/`parseField` wrapper around a child `_parse` call:
synchronous successes are kept, synchronous failures are merged into the
aggregate and marked with the sentinel, promises are kept pending with a
`.catch` that will merge the failure on settlement. -/
def classify : PR → ItemRes
  | .sync (.ok w) => .val w
  | .sync (.error e) => .sent (errToIssues e)
  | .async o => .pend o

/-- Issues merged synchronously (during the child loop), in child order. -/
def syncIssuesOf (rs : List ItemRes) : List Issue :=
  rs.foldr (fun r acc => match r with | .sent iss => iss ++ acc | _ => acc) []

/-- Issues merged on promise settlement (`.catch` handlers attached in
child order), in child order, after all synchronous merges. -/
def asyncIssuesOf (rs : List ItemRes) : List Issue :=
  rs.foldr
    (fun r acc => match r with
      | .pend (.error e) => errToIssues e ++ acc
      | _ => acc) []

/-- The final contents of the composite's aggregate once every child has
settled. -/
def aggOf (rs : List ItemRes) : List Issue := syncIssuesOf rs ++ asyncIssuesOf rs

/-- The successfully validated child values, in child order (the sentinel
filter of `unwrapValidOrThrow` / `buildOutput`). -/
def valsOf (rs : List ItemRes) : List Value :=
  rs.filterMap
    (fun r => match r with
      | .val w => some w
      | .pend (.ok w) => some w
      | _ => none)

/-- `results.some(isPromise)`. -/
def hasPend (rs : List ItemRes) : Bool :=
  rs.any (fun r => match r with | .pend _ => true | _ => false)

/-- Wrap a final outcome as the composite's result: asynchronous when any
child was a promise (`Promise.all(...).then(...)`), synchronous otherwise. -/
def wrapMP (b : Bool) (o : POutcome) : PR := if b then .async o else .sync o

/-- `ObjectSchema.buildOutput`: assemble the declared fields that did not
fail (object key assignment in shape order), then copy the passthrough
key/value pairs. -/
def buildObjOut (prs : List (String × ItemRes)) (passKVs : List (String × Value)) :
    List (String × Value) :=
  let base := prs.foldl
    (fun acc p =>
      match p.2 with
      | .val w => objAssign acc p.1 w
      | .pend (.ok w) => objAssign acc p.1 w
      | _ => acc) []
  passKVs.foldl (fun acc kv => objAssign acc kv.1 kv.2) base

/-- StringSchema chain configuration (`min`/`max`/`regex`; `email()` is
`regex` with a fixed pattern, modelled as an opaque-test predicate). -/
structure StrConfig where
  min : Option JsNum
  max : Option JsNum
  re : Option (String → Bool)

/-- NumberSchema chain configuration. -/
structure NumConfig where
  int : Bool
  min : Option JsNum
  max : Option JsNum

/-- ObjectSchema chain configuration. -/
structure ObjConfig where
  passthrough : Bool
  strict : Bool
deriving DecidableEq

/-- DefaultSchema source: a plain default value, or a supplier function
(which may throw, or return a promise). -/
inductive DefaultSource where
  | val (v : Value)
  | fn (f : Unit → MaybeProm (Except UserErr Value))

/-- A refine predicate: `(v) => MaybePromise<boolean | void>` (`void` is
falsy, so the result is collapsed to its truthiness), which may also
throw or reject with a user error. -/
abbrev RefineFn := Value → MaybeProm (Except UserErr Bool)

/-- A transform function: `(v) => MaybePromise<Out>`, which may throw or
reject with a user error. -/
abbrev TransformFn := Value → MaybeProm (Except UserErr Value)

mutual
/-- The schema tree: one constructor per concrete `BaseSchema` subclass. -/
inductive Schema where
  | str (cfg : StrConfig)
  | num (cfg : NumConfig)
  | boolS
  | enumS (vals : List String)
  | arr (inner : Schema)
  | obj (shape : FieldSchemas) (cfg : ObjConfig)
  | union (cands : Schemas)
  | optionalW (inner : Schema)
  | nullableW (inner : Schema)
  | nullishW (inner : Schema)
  | defaultW (inner : Schema) (src : DefaultSource)
  | refineW (inner : Schema) (pred : RefineFn) (msg : Option String)
  | transformW (inner : Schema) (fn : TransformFn)

/-- An object shape: the declared fields, in declaration order. -/
inductive FieldSchemas where
  | nil
  | cons (key : String) (s : Schema) (rest : FieldSchemas)

/-- A union candidate list, in declaration order. -/
inductive Schemas where
  | nil
  | cons (s : Schema) (rest : Schemas)
end

/-- `Object.keys(this.shape)`: the declared field names in order. -/
def keysF : FieldSchemas → List String
  | .nil => []
  | .cons k _ rest => k :: keysF rest

/-- The union candidate list as a plain list. -/
def Schemas.toList : Schemas → List Schema
  | .nil => []
  | .cons s rest => s :: rest.toList

/-- First failing check wins (the checks `throw` in source order). -/
def firstIssue : List (Option Issue) → Option Issue
  | [] => none
  | some i :: _ => some i
  | none :: rest => firstIssue rest

/-- StringSchema `_parse` on an actual string (the sequential
min/max/regex checks, first failure thrown). -/
def strParseOutcome (cfg : StrConfig) (s : String) (path : JPath) : POutcome :=
  let minIss : Option Issue :=
    match cfg.min with
    | some m =>
      if JsNum.jlt (.finite (s.length : Rat)) m then
        some ⟨path, .too_small, "Min length " ++ jsNumToString m⟩
      else none
    | none => none
  let maxIss : Option Issue :=
    match cfg.max with
    | some m =>
      if JsNum.jlt m (.finite (s.length : Rat)) then
        some ⟨path, .too_big, "Max length " ++ jsNumToString m⟩
      else none
    | none => none
  let reIss : Option Issue :=
    match cfg.re with
    | some test => if test s then none else some ⟨path, .invalid_string, "Regex mismatch"⟩
    | none => none
  match firstIssue [minIss, maxIss, reIss] with
  | some i => .error (.validation [i])
  | none => .ok (.vStr s)

/-- NumberSchema `_parse`: the type/NaN test, then the sequential
int/min/max checks, first failure thrown. -/
def numParseOutcome (cfg : NumConfig) (v : Value) (path : JPath) : POutcome :=
  match v with
  | .vNum n =>
    if n == .nan then .error (.validation [⟨path, .invalid_type, "Expected number"⟩])
    else
      let intIss : Option Issue :=
        if cfg.int && !n.isInt then some ⟨path, .invalid_type, "Expected integer"⟩ else none
      let minIss : Option Issue :=
        match cfg.min with
        | some m => if JsNum.jlt n m then some ⟨path, .too_small, "Min value " ++ jsNumToString m⟩ else none
        | none => none
      let maxIss : Option Issue :=
        match cfg.max with
        | some m => if JsNum.jlt m n then some ⟨path, .too_big, "Max value " ++ jsNumToString m⟩ else none
        | none => none
      match firstIssue [intIss, minIss, maxIss] with
      | some i => .error (.validation [i])
      | none => .ok (.vNum n)
  | _ => .error (.validation [⟨path, .invalid_type, "Expected number"⟩])

/-- EnumSchema failure message: `Expected one of ${vals.map(JSON.stringify).join(' | ')}`. -/
def enumMessage (vals : List String) : String :=
  "Expected one of " ++ String.intercalate " | " (vals.map (fun v => "\"" ++ v ++ "\""))

/-- DefaultSchema `resolveDefault()`: the plain value, or the supplier
invoked (it may throw synchronously, or return a promise). -/
def resolveDefault : DefaultSource → MaybeProm POutcome
  | .val v => .sync (.ok v)
  | .fn f =>
    match f () with
    | .sync (.ok d) => .sync (.ok d)
    | .sync (.error u) => .sync (.error u.toJs)
    | .async (.ok d) => .async (.ok d)
    | .async (.error u) => .async (.error u.toJs)

/-- RefinementSchema `validateRefinement` after the inner schema
succeeded with `w`: run the predicate; a falsy result raises one `custom`
issue at the current path; predicate throws/rejections propagate as-is. -/
def refineStep (pred : RefineFn) (msg : Option String) (w : Value) (path : JPath) : PR :=
  match pred w with
  | .sync (.ok b) =>
    if b then .sync (.ok w)
    else .sync (.error (.validation [⟨path, .custom, msg.getD "Refinement failed"⟩]))
  | .sync (.error u) => .sync (.error u.toJs)
  | .async (.ok b) =>
    if b then .async (.ok w)
    else .async (.error (.validation [⟨path, .custom, msg.getD "Refinement failed"⟩]))
  | .async (.error u) => .async (.error u.toJs)

/-- TransformSchema `_applyTransformOrThrow` after the inner schema
succeeded with `w`: any error from the function, sync or async, becomes
one `custom` issue at the current path. -/
def transStep (fn : TransformFn) (w : Value) (path : JPath) : PR :=
  match fn w with
  | .sync (.ok u) => .sync (.ok u)
  | .sync (.error e) => .sync (.error (.validation [⟨path, .custom, e.msg.getD e.rep⟩]))
  | .async (.ok u) => .async (.ok u)
  | .async (.error e) => .async (.error (.validation [⟨path, .custom, e.msg.getD e.rep⟩]))

/-- UnionSchema's `Promise.allSettled(pending).then(...)` loop: return the
first (declaration-order) fulfilled deferred candidate, merging the
rejections seen before it; if none fulfilled, throw the aggregate. -/
def settleUnion : List POutcome → List Issue → POutcome
  | [], agg => .error (.validation agg)
  | .ok w :: _, _ => .ok w
  | .error e :: rest, agg => settleUnion rest (vmerge agg e)

mutual
/-- `_parse(value, path)` of every schema class, by case on the schema. -/
def sparse : Schema → Value → JPath → PR
  | .str cfg, v, path =>
    match v with
    | .vStr s => .sync (strParseOutcome cfg s path)
    | _ => .sync (.error (.validation [⟨path, .invalid_type, "Expected string"⟩]))
  | .num cfg, v, path => .sync (numParseOutcome cfg v path)
  | .boolS, v, path =>
    match v with
    | .vBool b => .sync (.ok (.vBool b))
    | _ => .sync (.error (.validation [⟨path, .invalid_type, "Expected boolean"⟩]))
  | .enumS vals, v, path =>
    match v with
    | .vStr s =>
      if vals.contains s then .sync (.ok (.vStr s))
      else .sync (.error (.validation [⟨path, .invalid_enum, enumMessage vals⟩]))
    | _ => .sync (.error (.validation [⟨path, .invalid_enum, enumMessage vals⟩]))
  | .arr inner, v, path =>
    match v with
    | .vArr items =>
      let rs := items.enum.map (fun p => classify (sparse inner p.2 (pushPath path (.idx p.1))))
      wrapMP (hasPend rs)
        (if (aggOf rs).isEmpty then .ok (.vArr (valsOf rs))
         else .error (.validation (aggOf rs)))
    | _ => .sync (.error (.validation [⟨path, .invalid_array, "Expected array"⟩]))
  | .obj shape cfg, v, path =>
    match v with
    | .vObj fields =>
      let ks := keysF shape
      let remaining := (dedupKeys [] (fields.map Prod.fst)).filter (fun k => !(ks.contains k))
      let strictIss :=
        if cfg.strict then
          remaining.map (fun k =>
            (⟨pushPath path (.str k), .unrecognized_keys,
              "Unrecognized key: " ++ squote ++ k ++ squote⟩ : Issue))
        else []
      let prs := sparseFields shape fields path
      let rs := prs.map Prod.snd
      let agg := strictIss ++ aggOf rs
      let passKVs :=
        if cfg.passthrough then remaining.map (fun k => (k, getField fields k)) else []
      wrapMP (hasPend rs)
        (if agg.isEmpty then .ok (.vObj (buildObjOut prs passKVs))
         else .error (.validation agg))
    | _ => .sync (.error (.validation [⟨path, .invalid_object, "Expected object"⟩]))
  | .union cands, v, path => sparseUnion cands v path [] []
  | .optionalW inner, v, path =>
    match v with
    | .vUndefined => .sync (.ok .vUndefined)
    | v => sparse inner v path
  | .nullableW inner, v, path =>
    match v with
    | .vNull => .sync (.ok .vNull)
    | v => sparse inner v path
  | .nullishW inner, v, path =>
    match v with
    | .vNull => .sync (.ok .vNull)
    | .vUndefined => .sync (.ok .vUndefined)
    | v => sparse inner v path
  | .defaultW inner src, v, path =>
    match v with
    | .vUndefined =>
      match resolveDefault src with
      | .sync (.ok d) => sparse inner d path
      | .sync (.error e) => .sync (.error e)
      | .async (.ok d) => asAsync (sparse inner d path)
      | .async (.error e) => .async (.error e)
    | v => sparse inner v path
  | .refineW inner pred msg, v, path =>
    match sparse inner v path with
    | .sync (.ok w) => refineStep pred msg w path
    | .sync (.error e) => .sync (.error e)
    | .async (.ok w) => asAsync (refineStep pred msg w path)
    | .async (.error e) => .async (.error e)
  | .transformW inner fn, v, path =>
    match sparse inner v path with
    | .sync (.ok w) => transStep fn w path
    | .sync (.error e) => .sync (.error e)
    | .async (.ok w) => asAsync (transStep fn w path)
    | .async (.error e) => .async (.error e)
termination_by structural s => s

/-- ObjectSchema field `shapeKeys.map(parseField)` loop: each declared field is
validated against `record[key]` at the path extended by the key. -/
def sparseFields : FieldSchemas → List (String × Value) → JPath → List (String × ItemRes)
  | .nil, _, _ => []
  | .cons k s rest, record, path =>
    (k, classify (sparse s (getField record k) (pushPath path (.str k)))) ::
      sparseFields rest record path
termination_by structural fs => fs

/-- UnionSchema candidate loop: first synchronous success returns
immediately; synchronous failures merge into the aggregate; promises are
deferred; at the end, throw if nothing was deferred, else settle all
deferred candidates. -/
def sparseUnion : Schemas → Value → JPath → List Issue → List POutcome → PR
  | .nil, _, _, agg, pendings =>
    match pendings with
    | [] => .sync (.error (.validation agg))
    | _ => .async (settleUnion pendings agg)
  | .cons c rest, v, path, agg, pendings =>
    match sparse c v path with
    | .sync (.ok w) => .sync (.ok w)
    | .sync (.error e) => sparseUnion rest v path (vmerge agg e) pendings
    | .async o => sparseUnion rest v path agg (pendings ++ [o])
termination_by structural cs => cs
end

/-- The per-element results of the array composite (`input.map(parseItem)`). -/
def itemResults (inner : Schema) (items : List Value) (path : JPath) : List ItemRes :=
  items.enum.map (fun p => classify (sparse inner p.2 (pushPath path (.idx p.1))))

/-- `BaseSchema.parse`: run `_parse` at the root path; a promise result
raises `AsyncParseError`, otherwise return the value or propagate. -/
def parseE (s : Schema) (v : Value) : Except JsError Value :=
  match sparse s v [] with
  | .sync o => o
  | .async _ => .error .asyncParse

/-- `BaseSchema.parseAsync`: run `_parse` at the root path and await the
result, whether it was immediate or pending. -/
def parseAsyncE (s : Schema) (v : Value) : Except JsError Value :=
  match sparse s v [] with
  | .sync o => o
  | .async o => o

/-- `BaseSchema._makeSafeResultError`: keep a `ValidationError` aggregate,
normalize anything else to a one-issue `custom` aggregate at the root. -/
def makeSafeResultError (e : JsError) : List Issue :=
  match e with
  | .validation iss => iss
  | e => [⟨[], .custom, e.msgOpt.getD "Unknown error"⟩]

/-- `BaseSchema.safeParse`: `{success:true, data}` on success, otherwise
the caught error normalized by `_makeSafeResultError`. -/
def safeParse (s : Schema) (v : Value) : Except (List Issue) Value :=
  match parseE s v with
  | .ok d => .ok d
  | .error e => .error (makeSafeResultError e)

/-- `BaseSchema.safeParseAsync`: same, over `parseAsync`. -/
def safeParseAsync (s : Schema) (v : Value) : Except (List Issue) Value :=
  match parseAsyncE s v with
  | .ok d => .ok d
  | .error e => .error (makeSafeResultError e)

/-- `ObjectSchema.partial()`: wrap every declared field schema in the
optional wrapper (every `BaseSchema` exposes `optional()`, so the
`isOptional` branch always takes it). -/
def partialFields : FieldSchemas → FieldSchemas
  | .nil => .nil
  | .cons k s rest => .cons k (.optionalW s) (partialFields rest)

/-- The convenience constructor `s.string()`. -/
def sString : Schema := .str ⟨none, none, none⟩

/-- The convenience constructor `s.number()`. -/
def sNumber : Schema := .num ⟨false, none, none⟩

/-- Await a `MaybePromise` (what `parseAsync` observes): the immediate
outcome, or the outcome the promise settles to. -/
def settleMP : PR → POutcome
  | .sync o => o
  | .async o => o

/-- `Array.isArray`. -/
def isArrayV : Value → Bool
  | .vArr _ => true
  | _ => false

/-- Key-distinctness of a shape (an object literal cannot repeat keys). -/
def distinctKeys : List String → Bool
  | [] => true
  | k :: rest => !rest.contains k && distinctKeys rest

mutual
/-- Schemas containing neither a transform wrapper nor a union, with
well-formed (non-repeating) object shapes. -/
def tuFree : Schema → Bool
  | .str _ => true
  | .num _ => true
  | .boolS => true
  | .enumS _ => true
  | .arr inner => tuFree inner
  | .obj shape _ => distinctKeys (keysF shape) && tuFreeF shape
  | .union _ => false
  | .optionalW inner => tuFree inner
  | .nullableW inner => tuFree inner
  | .nullishW inner => tuFree inner
  | .defaultW inner _ => tuFree inner
  | .refineW inner _ _ => tuFree inner
  | .transformW _ _ => false
termination_by structural s => s

def tuFreeF : FieldSchemas → Bool
  | .nil => true
  | .cons _ s rest => tuFree s && tuFreeF rest
termination_by structural fs => fs
end

/-- The array composite's per-element results with an explicit start
index, for reasoning about the `input.map(parseItem)` loop. -/
def itemResultsFrom (inner : Schema) (items : List Value) (n : Nat) (path : JPath) :
    List ItemRes :=
  (List.enumFrom n items).map (fun p => classify (sparse inner p.2 (pushPath path (.idx p.1))))

theorem itemResults_eq_from (inner : Schema) (items : List Value) (path : JPath) :
    itemResults inner items path = itemResultsFrom inner items 0 path := rfl

theorem itemResultsFrom_nil (inner : Schema) (n : Nat) (path : JPath) :
    itemResultsFrom inner [] n path = [] := rfl

theorem itemResultsFrom_cons (inner : Schema) (x : Value) (rest : List Value) (n : Nat)
    (path : JPath) :
    itemResultsFrom inner (x :: rest) n path =
      classify (sparse inner x (pushPath path (.idx n))) :: itemResultsFrom inner rest (n + 1) path := rfl

theorem sparse_arr (inner : Schema) (items : List Value) (path : JPath) :
    sparse (.arr inner) (.vArr items) path =
      wrapMP (hasPend (itemResults inner items path))
        (if (aggOf (itemResults inner items path)).isEmpty then
           .ok (.vArr (valsOf (itemResults inner items path)))
         else .error (.validation (aggOf (itemResults inner items path)))) := rfl

theorem syncIssuesOf_nil : syncIssuesOf [] = [] := rfl

theorem syncIssuesOf_cons (r : ItemRes) (rs : List ItemRes) :
    syncIssuesOf (r :: rs) =
      (match r with | .sent iss => iss | _ => []) ++ syncIssuesOf rs := by
  cases r <;> simp [syncIssuesOf]

theorem asyncIssuesOf_nil : asyncIssuesOf [] = [] := rfl

theorem asyncIssuesOf_cons (r : ItemRes) (rs : List ItemRes) :
    asyncIssuesOf (r :: rs) =
      (match r with | .pend (.error e) => errToIssues e | _ => []) ++ asyncIssuesOf rs := by
  cases r with
  | pend o => cases o <;> simp [asyncIssuesOf]
  | val w => simp [asyncIssuesOf]
  | sent iss => simp [asyncIssuesOf]

theorem valsOf_nil : valsOf [] = [] := rfl

theorem valsOf_cons (r : ItemRes) (rs : List ItemRes) :
    valsOf (r :: rs) =
      (match r with | .val w => [w] | .pend (.ok w) => [w] | _ => []) ++ valsOf rs := by
  cases r with
  | pend o => cases o <;> simp [valsOf]
  | val w => simp [valsOf]
  | sent iss => simp [valsOf]

theorem hasPend_nil : hasPend [] = false := rfl

theorem hasPend_cons (r : ItemRes) (rs : List ItemRes) :
    hasPend (r :: rs) =
      ((match r with | .pend _ => true | _ => false) || hasPend rs) := by
  cases r <;> simp [hasPend]

theorem hasPend_map_val (ws : List Value) : hasPend (ws.map ItemRes.val) = false := by
  induction ws with
  | nil => rfl
  | cons w rest ih => simp [hasPend_cons, ih]

theorem syncIssuesOf_map_val (ws : List Value) : syncIssuesOf (ws.map ItemRes.val) = [] := by
  induction ws with
  | nil => rfl
  | cons w rest ih => simp [syncIssuesOf_cons, ih]

theorem asyncIssuesOf_map_val (ws : List Value) : asyncIssuesOf (ws.map ItemRes.val) = [] := by
  induction ws with
  | nil => rfl
  | cons w rest ih => simp [asyncIssuesOf_cons, ih]

theorem aggOf_map_val (ws : List Value) : aggOf (ws.map ItemRes.val) = [] := by
  simp [aggOf, syncIssuesOf_map_val, asyncIssuesOf_map_val]

theorem valsOf_map_val (ws : List Value) : valsOf (ws.map ItemRes.val) = ws := by
  induction ws with
  | nil => rfl
  | cons w rest ih => simp [valsOf_cons, ih]

/-- The input keys not declared in the shape (the post-loop contents of
`remainingKeys`, in insertion order). -/
def objRemaining (shape : FieldSchemas) (fields : List (String × Value)) : List String :=
  (dedupKeys [] (fields.map Prod.fst)).filter (fun k => !((keysF shape).contains k))

/-- The `unrecognized_keys` issues collected up-front in strict mode. -/
def objStrictIssues (shape : FieldSchemas) (cfg : ObjConfig) (fields : List (String × Value))
    (path : JPath) : List Issue :=
  if cfg.strict then
    (objRemaining shape fields).map (fun k =>
      (⟨pushPath path (.str k), .unrecognized_keys,
        "Unrecognized key: " ++ squote ++ k ++ squote⟩ : Issue))
  else []

/-- The unconsumed key/value pairs copied verbatim in passthrough mode. -/
def objPassKVs (shape : FieldSchemas) (cfg : ObjConfig) (fields : List (String × Value)) :
    List (String × Value) :=
  if cfg.passthrough then (objRemaining shape fields).map (fun k => (k, getField fields k)) else []

/-- The final contents of the object composite's aggregate. -/
def objAgg (shape : FieldSchemas) (cfg : ObjConfig) (fields : List (String × Value))
    (path : JPath) : List Issue :=
  objStrictIssues shape cfg fields path ++ aggOf ((sparseFields shape fields path).map Prod.snd)

theorem sparse_obj (shape : FieldSchemas) (cfg : ObjConfig) (fields : List (String × Value))
    (path : JPath) :
    sparse (.obj shape cfg) (.vObj fields) path =
      wrapMP (hasPend ((sparseFields shape fields path).map Prod.snd))
        (if (objAgg shape cfg fields path).isEmpty then
           .ok (.vObj (buildObjOut (sparseFields shape fields path) (objPassKVs shape cfg fields)))
         else .error (.validation (objAgg shape cfg fields path))) := rfl

theorem list_contains_iff (l : List String) (k : String) : l.contains k = true ↔ k ∈ l := by
  induction l with
  | nil => simp
  | cons a rest ih => simp [List.contains_cons, ih, beq_iff_eq]

theorem list_contains_false_iff (l : List String) (k : String) :
    l.contains k = false ↔ k ∉ l := by
  rw [← Bool.not_eq_true, not_iff_not]
  exact list_contains_iff l k

theorem distinctKeys_iff (l : List String) : distinctKeys l = true ↔ l.Nodup := by
  induction l with
  | nil => simp [distinctKeys]
  | cons a rest ih =>
    simp only [distinctKeys, Bool.and_eq_true, Bool.not_eq_true', List.nodup_cons,
      list_contains_false_iff, ih]

theorem dedupKeys_mem (l : List String) : ∀ (seen : List String) (k : String),
    k ∈ dedupKeys seen l → k ∈ l ∧ k ∉ seen := by
  induction l with
  | nil => intro seen k h; simp [dedupKeys] at h
  | cons a rest ih =>
    intro seen k h
    simp only [dedupKeys] at h
    by_cases ha : a ∈ seen
    · rw [if_pos ha] at h
      rcases ih seen k h with ⟨h1, h2⟩
      exact ⟨List.mem_cons_of_mem _ h1, h2⟩
    · rw [if_neg ha] at h
      rcases List.mem_cons.1 h with h | h
      · subst h
        exact ⟨List.mem_cons_self _ _, ha⟩
      · rcases ih (a :: seen) k h with ⟨h1, h2⟩
        refine ⟨List.mem_cons_of_mem _ h1, ?_⟩
        intro hk
        exact h2 (List.mem_cons_of_mem _ hk)

theorem dedupKeys_nodup (l : List String) : ∀ seen : List String, (dedupKeys seen l).Nodup := by
  induction l with
  | nil => intro seen; simp [dedupKeys]
  | cons a rest ih =>
    intro seen
    simp only [dedupKeys]
    by_cases ha : a ∈ seen
    · rw [if_pos ha]; exact ih seen
    · rw [if_neg ha]
      refine List.nodup_cons.2 ⟨?_, ih (a :: seen)⟩
      intro hmem
      exact (dedupKeys_mem rest (a :: seen) a hmem).2 (List.mem_cons_self _ _)

theorem dedupKeys_eq_self (l : List String) : ∀ seen : List String, l.Nodup →
    (∀ k ∈ l, k ∉ seen) → dedupKeys seen l = l := by
  induction l with
  | nil => intro seen _ _; rfl
  | cons a rest ih =>
    intro seen hnd hdisj
    simp only [dedupKeys]
    rw [if_neg (hdisj a (List.mem_cons_self _ _))]
    congr 1
    apply ih (a :: seen) (List.Nodup.of_cons hnd)
    intro k hk hmem
    rcases List.mem_cons.1 hmem with h | h
    · subst h
      exact (List.nodup_cons.1 hnd).1 hk
    · exact hdisj k (List.mem_cons_of_mem _ hk) h

theorem getField_cons (k1 : String) (w : Value) (rest : List (String × Value)) (k : String) :
    getField ((k1, w) :: rest) k = if k1 == k then w else getField rest k := by
  by_cases h : k1 == k
  · simp [getField, List.find?, h]
  · simp only [Bool.not_eq_true] at h
    simp [getField, List.find?, h]

theorem getField_append_of_not_mem (a b : List (String × Value)) (k : String)
    (h : k ∉ a.map Prod.fst) : getField (a ++ b) k = getField b k := by
  induction a with
  | nil => rfl
  | cons p rest ih =>
    simp only [List.map_cons, List.mem_cons] at h
    push_neg at h
    rcases p with ⟨k1, w⟩
    have hne : (k1 == k) = false := by
      simp only [beq_eq_false_iff_ne, ne_eq]
      exact fun hh => h.1 hh.symm
    simp only [List.cons_append, getField_cons, hne, Bool.false_eq_true, if_false]
    exact ih h.2

theorem getField_of_mem_nodup (a : List (String × Value)) (k : String) (w : Value)
    (hnd : (a.map Prod.fst).Nodup) (hmem : (k, w) ∈ a) : getField a k = w := by
  induction a with
  | nil => simp at hmem
  | cons p rest ih =>
    rcases p with ⟨k1, w1⟩
    rcases List.mem_cons.1 hmem with h | h
    · cases h
      simp [getField_cons]
    · have hk1 : k1 ≠ k := by
        intro he
        subst he
        have : k1 ∈ rest.map Prod.fst := List.mem_map_of_mem Prod.fst h
        exact (List.nodup_cons.1 (by simpa using hnd)).1 this
      have hne : (k1 == k) = false := by simpa [beq_eq_false_iff_ne] using hk1
      simp only [getField_cons, hne, Bool.false_eq_true, if_false]
      exact ih (List.Nodup.of_cons (by simpa using hnd)) h

theorem getField_append_of_mem (a b : List (String × Value)) (k : String) (w : Value)
    (hnd : (a.map Prod.fst).Nodup) (hmem : (k, w) ∈ a) : getField (a ++ b) k = w := by
  induction a with
  | nil => simp at hmem
  | cons p rest ih =>
    rcases p with ⟨k1, w1⟩
    rcases List.mem_cons.1 hmem with h | h
    · cases h
      simp [getField_cons]
    · have hk1 : k1 ≠ k := by
        intro he
        subst he
        have : k1 ∈ rest.map Prod.fst := List.mem_map_of_mem Prod.fst h
        exact (List.nodup_cons.1 (by simpa using hnd)).1 this
      have hne : (k1 == k) = false := by simpa [beq_eq_false_iff_ne] using hk1
      simp only [List.cons_append, getField_cons, hne, Bool.false_eq_true, if_false]
      exact ih (List.Nodup.of_cons (by simpa using hnd)) h

theorem anyKey_iff (o : List (String × Value)) (k : String) :
    (o.any (fun p => p.1 == k)) = true ↔ k ∈ o.map Prod.fst := by
  simp only [List.any_eq_true, beq_iff_eq, List.mem_map]

theorem objAssign_of_not_mem (o : List (String × Value)) (k : String) (v : Value)
    (h : k ∉ o.map Prod.fst) : objAssign o k v = o ++ [(k, v)] := by
  have : (o.any (fun p => p.1 == k)) = false := by
    rw [← Bool.not_eq_true]
    intro hc
    exact h ((anyKey_iff o k).1 hc)
  simp [objAssign, this]

theorem foldl_objAssign_disjoint (pairs : List (String × Value)) :
    ∀ acc : List (String × Value), (pairs.map Prod.fst).Nodup →
    (∀ k ∈ pairs.map Prod.fst, k ∉ acc.map Prod.fst) →
    pairs.foldl (fun acc kv => objAssign acc kv.1 kv.2) acc = acc ++ pairs := by
  induction pairs with
  | nil => intro acc _ _; simp
  | cons p rest ih =>
    intro acc hnd hdisj
    rcases p with ⟨k, v⟩
    simp only [List.foldl_cons]
    rw [objAssign_of_not_mem acc k v (hdisj k (by simp))]
    rw [ih (acc ++ [(k, v)]) (List.Nodup.of_cons (by simpa using hnd))]
    · simp
    · intro k2 hk2
      simp only [List.map_append, List.mem_append, List.map_cons, List.map_nil]
      rintro (h | h)
      · exact hdisj k2 (by simp [hk2]) h
      · simp only [List.mem_singleton] at h
        subst h
        have : k2 ∈ (rest.map Prod.fst) := hk2
        exact ((List.nodup_cons.1 (by simpa using hnd)).1) this

/-- A field-result list in which every declared field parsed successfully,
given by its key/value pairs. -/
def allValPairs (kws : List (String × Value)) : List (String × ItemRes) :=
  kws.map (fun q => (q.1, ItemRes.val q.2))

theorem allValPairs_map_fst (kws : List (String × Value)) :
    (allValPairs kws).map Prod.fst = kws.map Prod.fst := by
  simp [allValPairs]

theorem allValPairs_map_snd (kws : List (String × Value)) :
    (allValPairs kws).map Prod.snd = (kws.map Prod.snd).map ItemRes.val := by
  simp [allValPairs]

theorem buildObjOut_allval (kws passKVs : List (String × Value))
    (h1 : (kws.map Prod.fst).Nodup) (h2 : (passKVs.map Prod.fst).Nodup)
    (h3 : ∀ k ∈ passKVs.map Prod.fst, k ∉ kws.map Prod.fst) :
    buildObjOut (allValPairs kws) passKVs = kws ++ passKVs := by
  have hbase : ((allValPairs kws).foldl
      (fun acc p =>
        match p.2 with
        | .val w => objAssign acc p.1 w
        | .pend (.ok w) => objAssign acc p.1 w
        | _ => acc) []) = kws := by
    rw [allValPairs, List.foldl_map]
    have : (fun (acc : List (String × Value)) (q : String × Value) =>
        match (q.1, ItemRes.val q.2).2 with
        | .val w => objAssign acc (q.1, ItemRes.val q.2).1 w
        | .pend (.ok w) => objAssign acc (q.1, ItemRes.val q.2).1 w
        | _ => acc) = fun acc kv => objAssign acc kv.1 kv.2 := by
      funext acc q
      rfl
    rw [this, foldl_objAssign_disjoint kws [] h1 (by simp)]
    simp
  simp only [buildObjOut, hbase]
  exact foldl_objAssign_disjoint passKVs kws h2 h3

theorem sparseFields_map_fst : ∀ (fs : FieldSchemas) (record : List (String × Value)) (p : JPath),
    (sparseFields fs record p).map Prod.fst = keysF fs
  | .nil, _, _ => rfl
  | .cons k s rest, record, p => by
    simp only [sparseFields, keysF, List.map_cons]
    rw [sparseFields_map_fst rest record p]
termination_by structural fs => fs

theorem classify_eq_val (r : PR) (w : Value) : classify r = .val w ↔ r = .sync (.ok w) := by
  cases r with
  | sync o =>
    cases o with
    | ok u => simp [classify]
    | error e => simp [classify]
  | async o => simp [classify]

theorem classify_eq_sent (r : PR) (iss : List Issue) :
    classify r = .sent iss ↔ ∃ e, r = .sync (.error e) ∧ errToIssues e = iss := by
  cases r with
  | sync o =>
    cases o with
    | ok u => simp [classify]
    | error e => simp [classify, eq_comm]
  | async o => simp [classify]

theorem classify_pend (r : PR) (o : POutcome) : classify r = .pend o ↔ r = .async o := by
  cases r with
  | sync o2 =>
    cases o2 with
    | ok u => simp [classify]
    | error e => simp [classify]
  | async o2 => simp [classify]

theorem errToIssues_eq_nil (e : JsError) : errToIssues e = [] ↔ e = .validation [] := by
  cases e with
  | validation iss => simp [errToIssues]
  | asyncParse => simp [errToIssues]
  | other m r => simp [errToIssues]

theorem strParseOutcome_cases (cfg : StrConfig) (s : String) (path : JPath) :
    strParseOutcome cfg s path = .ok (.vStr s) ∨
    ∃ i, strParseOutcome cfg s path = .error (.validation [i]) := by
  simp only [strParseOutcome]
  split
  · right; exact ⟨_, rfl⟩
  · left; rfl

theorem numParseOutcome_cases (cfg : NumConfig) (v : Value) (path : JPath) :
    (∃ n, v = .vNum n ∧ numParseOutcome cfg v path = .ok (.vNum n)) ∨
    ∃ i, numParseOutcome cfg v path = .error (.validation [i]) := by
  cases v with
  | vNum n =>
    simp only [numParseOutcome]
    by_cases hn : (n == JsNum.nan) = true
    · rw [if_pos hn]; right; exact ⟨_, rfl⟩
    · rw [if_neg hn]
      split
      · right; exact ⟨_, rfl⟩
      · left; exact ⟨n, rfl, rfl⟩
  | vNull => right; exact ⟨_, rfl⟩
  | vUndefined => right; exact ⟨_, rfl⟩
  | vBool b => right; exact ⟨_, rfl⟩
  | vStr s => right; exact ⟨_, rfl⟩
  | vArr items => right; exact ⟨_, rfl⟩
  | vObj fields => right; exact ⟨_, rfl⟩

theorem resolveDefault_sync_error (src : DefaultSource) (e : JsError)
    (h : resolveDefault src = .sync (.error e)) : ∃ u : UserErr, e = u.toJs := by
  cases src with
  | val v => simp [resolveDefault] at h
  | fn f =>
    simp only [resolveDefault] at h
    cases hf : f () with
    | sync o =>
      cases o with
      | ok d => rw [hf] at h; simp at h
      | error u =>
        rw [hf] at h
        simp only [MaybeProm.sync.injEq, Except.error.injEq] at h
        exact ⟨u, h.symm⟩
    | async o =>
      cases o with
      | ok d => rw [hf] at h; simp at h
      | error u => rw [hf] at h; simp at h

theorem refineStep_no_sync_error_cases (pred : RefineFn) (msg : Option String) (w : Value)
    (path : JPath) (e : JsError) (h : refineStep pred msg w path = .sync (.error e)) :
    (∃ i, e = .validation [i]) ∨ ∃ u : UserErr, e = u.toJs := by
  simp only [refineStep] at h
  cases hp : pred w with
  | sync o =>
    cases o with
    | ok b =>
      rw [hp] at h
      by_cases hb : b = true
      · simp [hb] at h
      · simp only [Bool.not_eq_true] at hb
        simp only [hb, Bool.false_eq_true, if_false, MaybeProm.sync.injEq, Except.error.injEq] at h
        exact Or.inl ⟨_, h.symm⟩
    | error u =>
      rw [hp] at h
      simp only [MaybeProm.sync.injEq, Except.error.injEq] at h
      exact Or.inr ⟨u, h.symm⟩
  | async o =>
    cases o with
    | ok b =>
      rw [hp] at h
      by_cases hb : b = true
      · simp [hb] at h
      · simp only [Bool.not_eq_true] at hb
        simp [hb] at h
    | error u => rw [hp] at h; simp at h

theorem transStep_sync_error_validation (fn : TransformFn) (w : Value) (path : JPath)
    (e : JsError) (h : transStep fn w path = .sync (.error e)) : ∃ i, e = .validation [i] := by
  simp only [transStep] at h
  cases hf : fn w with
  | sync o =>
    cases o with
    | ok u => rw [hf] at h; simp at h
    | error u =>
      rw [hf] at h
      simp only [MaybeProm.sync.injEq, Except.error.injEq] at h
      exact ⟨_, h.symm⟩
  | async o =>
    cases o with
    | ok u => rw [hf] at h; simp at h
    | error u => rw [hf] at h; simp at h

theorem asAsync_ne_sync (r : PR) (o : POutcome) : asAsync r ≠ .sync o := by
  cases r <;> simp [asAsync]

/-- In the transform/union-free fragment, `_parse` never synchronously
throws an aggregate with zero issues (every failure carries at least one
issue; composites guard their own throw with `hasIssues`). -/
theorem sparse_no_empty_validation : ∀ (s : Schema), tuFree s = true →
    ∀ v p, sparse s v p ≠ .sync (.error (.validation []))
  | .str cfg, _, v, p => by
    cases v with
    | vStr s =>
      intro h
      have h2 : strParseOutcome cfg s p = .error (.validation []) := by
        injection h
      rcases strParseOutcome_cases cfg s p with hc | ⟨i, hc⟩
      · rw [hc] at h2; exact Except.noConfusion h2
      · rw [hc] at h2; simp at h2
    | vNull => simp [sparse]
    | vUndefined => simp [sparse]
    | vBool b => simp [sparse]
    | vNum n => simp [sparse]
    | vArr items => simp [sparse]
    | vObj fields => simp [sparse]
  | .num cfg, _, v, p => by
    intro h
    have h2 : numParseOutcome cfg v p = .error (.validation []) := by
      injection h
    rcases numParseOutcome_cases cfg v p with ⟨n, _, hc⟩ | ⟨i, hc⟩
    · rw [hc] at h2; exact Except.noConfusion h2
    · rw [hc] at h2; simp at h2
  | .boolS, _, v, p => by
    cases v <;> simp [sparse]
  | .enumS vals, _, v, p => by
    cases v with
    | vStr s =>
      by_cases hc : s ∈ vals
      · simp [sparse, hc]
      · simp [sparse, hc]
    | vNull => simp [sparse]
    | vUndefined => simp [sparse]
    | vBool b => simp [sparse]
    | vNum n => simp [sparse]
    | vArr items => simp [sparse]
    | vObj fields => simp [sparse]
  | .arr inner, _, v, p => by
    cases v with
    | vArr items =>
      intro h
      rw [sparse_arr] at h
      cases hb : hasPend (itemResults inner items p) with
      | true => rw [hb] at h; simp [wrapMP] at h
      | false =>
        rw [hb] at h
        simp only [wrapMP, Bool.false_eq_true, if_false] at h
        cases he : (aggOf (itemResults inner items p)).isEmpty with
        | true => simp [he] at h
        | false =>
          simp only [he, Bool.false_eq_true, if_false, MaybeProm.sync.injEq, Except.error.injEq,
            JsError.validation.injEq] at h
          rw [h] at he
          simp at he
    | vNull => simp [sparse]
    | vUndefined => simp [sparse]
    | vBool b => simp [sparse]
    | vNum n => simp [sparse]
    | vStr s => simp [sparse]
    | vObj fields => simp [sparse]
  | .obj shape cfg, _, v, p => by
    cases v with
    | vObj fields =>
      intro h
      rw [sparse_obj] at h
      cases hb : hasPend ((sparseFields shape fields p).map Prod.snd) with
      | true => rw [hb] at h; simp [wrapMP] at h
      | false =>
        rw [hb] at h
        simp only [wrapMP, Bool.false_eq_true, if_false] at h
        cases he : (objAgg shape cfg fields p).isEmpty with
        | true => simp [he] at h
        | false =>
          simp only [he, Bool.false_eq_true, if_false, MaybeProm.sync.injEq, Except.error.injEq,
            JsError.validation.injEq] at h
          rw [h] at he
          simp at he
    | vNull => simp [sparse]
    | vUndefined => simp [sparse]
    | vBool b => simp [sparse]
    | vNum n => simp [sparse]
    | vStr s => simp [sparse]
    | vArr items => simp [sparse]
  | .union cands, htu, v, p => absurd htu (by simp [tuFree])
  | .optionalW inner, htu, v, p => by
    have htu' : tuFree inner = true := by simpa [tuFree] using htu
    cases v with
    | vUndefined => simp [sparse]
    | vNull => exact sparse_no_empty_validation inner htu' _ p
    | vBool b => exact sparse_no_empty_validation inner htu' _ p
    | vNum n => exact sparse_no_empty_validation inner htu' _ p
    | vStr s => exact sparse_no_empty_validation inner htu' _ p
    | vArr items => exact sparse_no_empty_validation inner htu' _ p
    | vObj fields => exact sparse_no_empty_validation inner htu' _ p
  | .nullableW inner, htu, v, p => by
    have htu' : tuFree inner = true := by simpa [tuFree] using htu
    cases v with
    | vNull => simp [sparse]
    | vUndefined => exact sparse_no_empty_validation inner htu' _ p
    | vBool b => exact sparse_no_empty_validation inner htu' _ p
    | vNum n => exact sparse_no_empty_validation inner htu' _ p
    | vStr s => exact sparse_no_empty_validation inner htu' _ p
    | vArr items => exact sparse_no_empty_validation inner htu' _ p
    | vObj fields => exact sparse_no_empty_validation inner htu' _ p
  | .nullishW inner, htu, v, p => by
    have htu' : tuFree inner = true := by simpa [tuFree] using htu
    cases v with
    | vNull => simp [sparse]
    | vUndefined => simp [sparse]
    | vBool b => exact sparse_no_empty_validation inner htu' _ p
    | vNum n => exact sparse_no_empty_validation inner htu' _ p
    | vStr s => exact sparse_no_empty_validation inner htu' _ p
    | vArr items => exact sparse_no_empty_validation inner htu' _ p
    | vObj fields => exact sparse_no_empty_validation inner htu' _ p
  | .defaultW inner src, htu, v, p => by
    have htu' : tuFree inner = true := by simpa [tuFree] using htu
    cases v with
    | vUndefined =>
      show (match resolveDefault src with
        | .sync (.ok d) => sparse inner d p
        | .sync (.error e) => .sync (.error e)
        | .async (.ok d) => asAsync (sparse inner d p)
        | .async (.error e) => .async (.error e)) ≠ .sync (.error (.validation []))
      cases hres : resolveDefault src with
      | sync o =>
        cases o with
        | ok d => exact sparse_no_empty_validation inner htu' d p
        | error e =>
          intro h
          simp only [MaybeProm.sync.injEq, Except.error.injEq] at h
          rcases resolveDefault_sync_error src e hres with ⟨u, hu⟩
          rw [hu] at h
          exact JsError.noConfusion h
      | async o =>
        cases o with
        | ok d => exact asAsync_ne_sync _ _
        | error e => simp
    | vNull => exact sparse_no_empty_validation inner htu' _ p
    | vBool b => exact sparse_no_empty_validation inner htu' _ p
    | vNum n => exact sparse_no_empty_validation inner htu' _ p
    | vStr s => exact sparse_no_empty_validation inner htu' _ p
    | vArr items => exact sparse_no_empty_validation inner htu' _ p
    | vObj fields => exact sparse_no_empty_validation inner htu' _ p
  | .refineW inner pred msg, htu, v, p => by
    have htu' : tuFree inner = true := by simpa [tuFree] using htu
    intro h
    simp only [sparse] at h
    cases hi : sparse inner v p with
    | sync o =>
      cases o with
      | ok w =>
        rw [hi] at h
        rcases refineStep_no_sync_error_cases pred msg w p _ h with ⟨i, hc⟩ | ⟨u, hc⟩
        · simp at hc
        · simp [UserErr.toJs] at hc
      | error e =>
        rw [hi] at h
        simp only [MaybeProm.sync.injEq, Except.error.injEq] at h
        rw [h] at hi
        exact sparse_no_empty_validation inner htu' v p hi
    | async o =>
      cases o with
      | ok w =>
        rw [hi] at h
        exact asAsync_ne_sync _ _ h
      | error e =>
        rw [hi] at h
        exact MaybeProm.noConfusion h
  | .transformW inner fn, htu, v, p => absurd htu (by simp [tuFree])
termination_by structural s => s

/-- The union loop never synchronously throws the engine's
`AsyncParseError`: its own throws are always the aggregate. -/
theorem sparseUnion_no_sync_asyncParse : ∀ (cs : Schemas) (v : Value) (p : JPath)
    (agg : List Issue) (pendings : List POutcome),
    sparseUnion cs v p agg pendings ≠ .sync (.error .asyncParse)
  | .nil, v, p, agg, pendings => by
    cases pendings with
    | nil => simp [sparseUnion]
    | cons o rest => simp [sparseUnion]
  | .cons c rest, v, p, agg, pendings => by
    intro h
    simp only [sparseUnion] at h
    cases hc : sparse c v p with
    | sync o =>
      cases o with
      | ok w => rw [hc] at h; exact Except.noConfusion (MaybeProm.sync.inj h)
      | error e =>
        rw [hc] at h
        exact sparseUnion_no_sync_asyncParse rest v p (vmerge agg e) pendings h
    | async o =>
      rw [hc] at h
      exact sparseUnion_no_sync_asyncParse rest v p agg (pendings ++ [o]) h
termination_by structural cs => cs

/-- No `_parse` ever synchronously throws the engine's `AsyncParseError`:
that error is only constructed by the top-level `parse` entry point. -/
theorem sparse_no_sync_asyncParse : ∀ (s : Schema) (v : Value) (p : JPath),
    sparse s v p ≠ .sync (.error .asyncParse)
  | .str cfg, v, p => by
    cases v with
    | vStr s =>
      intro h
      have h2 : strParseOutcome cfg s p = .error .asyncParse := by injection h
      rcases strParseOutcome_cases cfg s p with hc | ⟨i, hc⟩
      · rw [hc] at h2; exact Except.noConfusion h2
      · rw [hc] at h2; simp at h2
    | vNull => simp [sparse]
    | vUndefined => simp [sparse]
    | vBool b => simp [sparse]
    | vNum n => simp [sparse]
    | vArr items => simp [sparse]
    | vObj fields => simp [sparse]
  | .num cfg, v, p => by
    intro h
    have h2 : numParseOutcome cfg v p = .error .asyncParse := by injection h
    rcases numParseOutcome_cases cfg v p with ⟨n, _, hc⟩ | ⟨i, hc⟩
    · rw [hc] at h2; exact Except.noConfusion h2
    · rw [hc] at h2; simp at h2
  | .boolS, v, p => by
    cases v <;> simp [sparse]
  | .enumS vals, v, p => by
    cases v with
    | vStr s =>
      by_cases hc : s ∈ vals
      · simp [sparse, hc]
      · simp [sparse, hc]
    | vNull => simp [sparse]
    | vUndefined => simp [sparse]
    | vBool b => simp [sparse]
    | vNum n => simp [sparse]
    | vArr items => simp [sparse]
    | vObj fields => simp [sparse]
  | .arr inner, v, p => by
    cases v with
    | vArr items =>
      intro h
      rw [sparse_arr] at h
      cases hb : hasPend (itemResults inner items p) with
      | true => rw [hb] at h; simp [wrapMP] at h
      | false =>
        rw [hb] at h
        simp only [wrapMP, Bool.false_eq_true, if_false] at h
        cases he : (aggOf (itemResults inner items p)).isEmpty with
        | true => simp [he] at h
        | false =>
          simp only [he, Bool.false_eq_true, if_false, MaybeProm.sync.injEq] at h
          exact JsError.noConfusion (Except.error.inj h)
    | vNull => simp [sparse]
    | vUndefined => simp [sparse]
    | vBool b => simp [sparse]
    | vNum n => simp [sparse]
    | vStr s => simp [sparse]
    | vObj fields => simp [sparse]
  | .obj shape cfg, v, p => by
    cases v with
    | vObj fields =>
      intro h
      rw [sparse_obj] at h
      cases hb : hasPend ((sparseFields shape fields p).map Prod.snd) with
      | true => rw [hb] at h; simp [wrapMP] at h
      | false =>
        rw [hb] at h
        simp only [wrapMP, Bool.false_eq_true, if_false] at h
        cases he : (objAgg shape cfg fields p).isEmpty with
        | true => simp [he] at h
        | false =>
          simp only [he, Bool.false_eq_true, if_false, MaybeProm.sync.injEq] at h
          exact JsError.noConfusion (Except.error.inj h)
    | vNull => simp [sparse]
    | vUndefined => simp [sparse]
    | vBool b => simp [sparse]
    | vNum n => simp [sparse]
    | vStr s => simp [sparse]
    | vArr items => simp [sparse]
  | .union cands, v, p => by
    intro h
    exact sparseUnion_no_sync_asyncParse cands v p [] [] h
  | .optionalW inner, v, p => by
    cases v with
    | vUndefined => simp [sparse]
    | vNull => exact sparse_no_sync_asyncParse inner _ p
    | vBool b => exact sparse_no_sync_asyncParse inner _ p
    | vNum n => exact sparse_no_sync_asyncParse inner _ p
    | vStr s => exact sparse_no_sync_asyncParse inner _ p
    | vArr items => exact sparse_no_sync_asyncParse inner _ p
    | vObj fields => exact sparse_no_sync_asyncParse inner _ p
  | .nullableW inner, v, p => by
    cases v with
    | vNull => simp [sparse]
    | vUndefined => exact sparse_no_sync_asyncParse inner _ p
    | vBool b => exact sparse_no_sync_asyncParse inner _ p
    | vNum n => exact sparse_no_sync_asyncParse inner _ p
    | vStr s => exact sparse_no_sync_asyncParse inner _ p
    | vArr items => exact sparse_no_sync_asyncParse inner _ p
    | vObj fields => exact sparse_no_sync_asyncParse inner _ p
  | .nullishW inner, v, p => by
    cases v with
    | vNull => simp [sparse]
    | vUndefined => simp [sparse]
    | vBool b => exact sparse_no_sync_asyncParse inner _ p
    | vNum n => exact sparse_no_sync_asyncParse inner _ p
    | vStr s => exact sparse_no_sync_asyncParse inner _ p
    | vArr items => exact sparse_no_sync_asyncParse inner _ p
    | vObj fields => exact sparse_no_sync_asyncParse inner _ p
  | .defaultW inner src, v, p => by
    cases v with
    | vUndefined =>
      show (match resolveDefault src with
        | .sync (.ok d) => sparse inner d p
        | .sync (.error e) => .sync (.error e)
        | .async (.ok d) => asAsync (sparse inner d p)
        | .async (.error e) => .async (.error e)) ≠ .sync (.error .asyncParse)
      cases hres : resolveDefault src with
      | sync o =>
        cases o with
        | ok d => exact sparse_no_sync_asyncParse inner d p
        | error e =>
          intro h
          simp only [MaybeProm.sync.injEq, Except.error.injEq] at h
          rcases resolveDefault_sync_error src e hres with ⟨u, hu⟩
          rw [hu] at h
          exact JsError.noConfusion h
      | async o =>
        cases o with
        | ok d => exact asAsync_ne_sync _ _
        | error e => simp
    | vNull => exact sparse_no_sync_asyncParse inner _ p
    | vBool b => exact sparse_no_sync_asyncParse inner _ p
    | vNum n => exact sparse_no_sync_asyncParse inner _ p
    | vStr s => exact sparse_no_sync_asyncParse inner _ p
    | vArr items => exact sparse_no_sync_asyncParse inner _ p
    | vObj fields => exact sparse_no_sync_asyncParse inner _ p
  | .refineW inner pred msg, v, p => by
    intro h
    simp only [sparse] at h
    cases hi : sparse inner v p with
    | sync o =>
      cases o with
      | ok w =>
        rw [hi] at h
        rcases refineStep_no_sync_error_cases pred msg w p _ h with ⟨i, hc⟩ | ⟨u, hc⟩
        · exact JsError.noConfusion hc
        · simp [UserErr.toJs] at hc
      | error e =>
        rw [hi] at h
        simp only [MaybeProm.sync.injEq, Except.error.injEq] at h
        rw [h] at hi
        exact sparse_no_sync_asyncParse inner v p hi
    | async o =>
      cases o with
      | ok w =>
        rw [hi] at h
        exact asAsync_ne_sync _ _ h
      | error e =>
        rw [hi] at h
        exact MaybeProm.noConfusion h
  | .transformW inner fn, v, p => by
    intro h
    simp only [sparse] at h
    cases hi : sparse inner v p with
    | sync o =>
      cases o with
      | ok w =>
        rw [hi] at h
        rcases transStep_sync_error_validation fn w p _ h with ⟨i, hc⟩
        exact JsError.noConfusion hc
      | error e =>
        rw [hi] at h
        simp only [MaybeProm.sync.injEq, Except.error.injEq] at h
        rw [h] at hi
        exact sparse_no_sync_asyncParse inner v p hi
    | async o =>
      cases o with
      | ok w =>
        rw [hi] at h
        exact asAsync_ne_sync _ _ h
      | error e =>
        rw [hi] at h
        exact MaybeProm.noConfusion h
termination_by structural s => s

theorem refineStep_sync_ok (pred : RefineFn) (msg : Option String) (w : Value) (path : JPath)
    (u : Value) (h : refineStep pred msg w path = .sync (.ok u)) :
    u = w ∧ pred w = .sync (.ok true) := by
  simp only [refineStep] at h
  cases hp : pred w with
  | sync o =>
    cases o with
    | ok b =>
      rw [hp] at h
      by_cases hb : b = true
      · simp only [hb, if_true, MaybeProm.sync.injEq, Except.ok.injEq] at h
        refine ⟨h.symm, ?_⟩
        rw [hb]
      · simp only [Bool.not_eq_true] at hb
        simp [hb] at h
    | error uerr => rw [hp] at h; simp at h
  | async o =>
    cases o with
    | ok b =>
      rw [hp] at h
      by_cases hb : b = true
      · simp [hb] at h
      · simp only [Bool.not_eq_true] at hb
        simp [hb] at h
    | error uerr => rw [hp] at h; simp at h

/-- In the transform/union-free fragment, a successful parse can return
`undefined` only when the input itself was `undefined`. -/
theorem sparse_undef_out : ∀ (s : Schema), tuFree s = true →
    ∀ v p, sparse s v p = .sync (.ok .vUndefined) → v = .vUndefined
  | .str cfg, _, v, p => by
    cases v with
    | vStr s =>
      intro h
      have h2 : strParseOutcome cfg s p = .ok .vUndefined := by injection h
      rcases strParseOutcome_cases cfg s p with hc | ⟨i, hc⟩
      · rw [hc] at h2; simp at h2
      · rw [hc] at h2; exact Except.noConfusion h2
    | vNull => intro h; simp [sparse] at h
    | vUndefined => intro _; rfl
    | vBool b => intro h; simp [sparse] at h
    | vNum n => intro h; simp [sparse] at h
    | vArr items => intro h; simp [sparse] at h
    | vObj fields => intro h; simp [sparse] at h
  | .num cfg, _, v, p => by
    intro h
    have h2 : numParseOutcome cfg v p = .ok .vUndefined := by injection h
    rcases numParseOutcome_cases cfg v p with ⟨n, _, hc⟩ | ⟨i, hc⟩
    · rw [hc] at h2; simp at h2
    · rw [hc] at h2; exact Except.noConfusion h2
  | .boolS, _, v, p => by
    cases v with
    | vBool b => intro h; simp [sparse] at h
    | vUndefined => intro _; rfl
    | vNull => intro h; simp [sparse] at h
    | vNum n => intro h; simp [sparse] at h
    | vStr s => intro h; simp [sparse] at h
    | vArr items => intro h; simp [sparse] at h
    | vObj fields => intro h; simp [sparse] at h
  | .enumS vals, _, v, p => by
    cases v with
    | vStr s =>
      intro h
      by_cases hc : s ∈ vals
      · simp [sparse, hc] at h
      · simp [sparse, hc] at h
    | vUndefined => intro _; rfl
    | vNull => intro h; simp [sparse] at h
    | vBool b => intro h; simp [sparse] at h
    | vNum n => intro h; simp [sparse] at h
    | vArr items => intro h; simp [sparse] at h
    | vObj fields => intro h; simp [sparse] at h
  | .arr inner, _, v, p => by
    cases v with
    | vArr items =>
      intro h
      rw [sparse_arr] at h
      cases hb : hasPend (itemResults inner items p) with
      | true => rw [hb] at h; simp [wrapMP] at h
      | false =>
        rw [hb] at h
        simp only [wrapMP, Bool.false_eq_true, if_false] at h
        cases he : (aggOf (itemResults inner items p)).isEmpty with
        | true => simp [he] at h
        | false => simp [he] at h
    | vUndefined => intro _; rfl
    | vNull => intro h; simp [sparse] at h
    | vBool b => intro h; simp [sparse] at h
    | vNum n => intro h; simp [sparse] at h
    | vStr s => intro h; simp [sparse] at h
    | vObj fields => intro h; simp [sparse] at h
  | .obj shape cfg, _, v, p => by
    cases v with
    | vObj fields =>
      intro h
      rw [sparse_obj] at h
      cases hb : hasPend ((sparseFields shape fields p).map Prod.snd) with
      | true => rw [hb] at h; simp [wrapMP] at h
      | false =>
        rw [hb] at h
        simp only [wrapMP, Bool.false_eq_true, if_false] at h
        cases he : (objAgg shape cfg fields p).isEmpty with
        | true => simp [he] at h
        | false => simp [he] at h
    | vUndefined => intro _; rfl
    | vNull => intro h; simp [sparse] at h
    | vBool b => intro h; simp [sparse] at h
    | vNum n => intro h; simp [sparse] at h
    | vStr s => intro h; simp [sparse] at h
    | vArr items => intro h; simp [sparse] at h
  | .union cands, htu, v, p => absurd htu (by simp [tuFree])
  | .optionalW inner, htu, v, p => by
    have htu' : tuFree inner = true := by simpa [tuFree] using htu
    cases v with
    | vUndefined => intro _; rfl
    | vNull => exact sparse_undef_out inner htu' _ p
    | vBool b => exact sparse_undef_out inner htu' _ p
    | vNum n => exact sparse_undef_out inner htu' _ p
    | vStr s => exact sparse_undef_out inner htu' _ p
    | vArr items => exact sparse_undef_out inner htu' _ p
    | vObj fields => exact sparse_undef_out inner htu' _ p
  | .nullableW inner, htu, v, p => by
    have htu' : tuFree inner = true := by simpa [tuFree] using htu
    cases v with
    | vNull => intro h; simp [sparse] at h
    | vUndefined => intro _; rfl
    | vBool b => exact sparse_undef_out inner htu' _ p
    | vNum n => exact sparse_undef_out inner htu' _ p
    | vStr s => exact sparse_undef_out inner htu' _ p
    | vArr items => exact sparse_undef_out inner htu' _ p
    | vObj fields => exact sparse_undef_out inner htu' _ p
  | .nullishW inner, htu, v, p => by
    have htu' : tuFree inner = true := by simpa [tuFree] using htu
    cases v with
    | vNull => intro h; simp [sparse] at h
    | vUndefined => intro _; rfl
    | vBool b => exact sparse_undef_out inner htu' _ p
    | vNum n => exact sparse_undef_out inner htu' _ p
    | vStr s => exact sparse_undef_out inner htu' _ p
    | vArr items => exact sparse_undef_out inner htu' _ p
    | vObj fields => exact sparse_undef_out inner htu' _ p
  | .defaultW inner src, htu, v, p => by
    have htu' : tuFree inner = true := by simpa [tuFree] using htu
    cases v with
    | vUndefined => intro _; rfl
    | vNull => exact sparse_undef_out inner htu' _ p
    | vBool b => exact sparse_undef_out inner htu' _ p
    | vNum n => exact sparse_undef_out inner htu' _ p
    | vStr s => exact sparse_undef_out inner htu' _ p
    | vArr items => exact sparse_undef_out inner htu' _ p
    | vObj fields => exact sparse_undef_out inner htu' _ p
  | .refineW inner pred msg, htu, v, p => by
    have htu' : tuFree inner = true := by simpa [tuFree] using htu
    intro h
    simp only [sparse] at h
    cases hi : sparse inner v p with
    | sync o =>
      cases o with
      | ok w =>
        rw [hi] at h
        rcases refineStep_sync_ok pred msg w p _ h with ⟨hw, _⟩
        rw [← hw] at hi
        exact sparse_undef_out inner htu' v p hi
      | error e => rw [hi] at h; simp at h
    | async o =>
      cases o with
      | ok w =>
        rw [hi] at h
        exact absurd h (asAsync_ne_sync _ _)
      | error e => rw [hi] at h; simp at h
  | .transformW inner fn, htu, v, p => absurd htu (by simp [tuFree])
termination_by structural s => s

theorem isEmpty_iff_nil {α : Type} (l : List α) : l.isEmpty = true ↔ l = [] := by
  cases l <;> simp

theorem aggOf_cons_empty (r : ItemRes) (rs : List ItemRes)
    (h : (aggOf (r :: rs)).isEmpty = true) :
    (match r with | .sent iss => iss | _ => []) = [] ∧
    (match r with | .pend (.error e) => errToIssues e | _ => []) = [] ∧
    (aggOf rs).isEmpty = true := by
  rw [isEmpty_iff_nil] at h
  unfold aggOf at h
  rw [syncIssuesOf_cons, asyncIssuesOf_cons] at h
  rcases List.append_eq_nil.1 h with ⟨h1, h2⟩
  rcases List.append_eq_nil.1 h1 with ⟨h3, h4⟩
  rcases List.append_eq_nil.1 h2 with ⟨h5, h6⟩
  refine ⟨h3, h5, ?_⟩
  rw [isEmpty_iff_nil]
  unfold aggOf
  rw [h4, h6]
  rfl

theorem fixItems_aux (inner : Schema)
    (IHfix : ∀ x p v, sparse inner x p = .sync (.ok v) → sparse inner v p = .sync (.ok v))
    (IHne : ∀ v p, sparse inner v p ≠ .sync (.error (.validation []))) :
    ∀ (items : List Value) (n : Nat) (p : JPath),
      hasPend (itemResultsFrom inner items n p) = false →
      (aggOf (itemResultsFrom inner items n p)).isEmpty = true →
      ∃ ws, itemResultsFrom inner items n p = ws.map ItemRes.val ∧
            itemResultsFrom inner ws n p = ws.map ItemRes.val := by
  intro items
  induction items with
  | nil =>
    intro n p _ _
    exact ⟨[], rfl, rfl⟩
  | cons x rest ih =>
    intro n p hpend hagg
    rw [itemResultsFrom_cons] at hpend hagg
    have hpend2 := hpend
    rw [hasPend_cons, Bool.or_eq_false_iff] at hpend2
    rcases aggOf_cons_empty _ _ hagg with ⟨hsent, _, haggrest⟩
    cases hr : classify (sparse inner x (pushPath p (.idx n))) with
    | pend o => rw [hr] at hpend2; simp at hpend2
    | sent iss =>
      rw [hr] at hsent
      simp only at hsent
      subst hsent
      rcases (classify_eq_sent _ _).1 hr with ⟨e, he, hiss⟩
      rw [errToIssues_eq_nil] at hiss
      subst hiss
      exact absurd he (IHne _ _)
    | val w =>
      have hs : sparse inner x (pushPath p (.idx n)) = .sync (.ok w) := (classify_eq_val _ _).1 hr
      have hpendrest : hasPend (itemResultsFrom inner rest (n + 1) p) = false := by
        rw [hr] at hpend2; exact hpend2.2
      rcases ih (n + 1) p hpendrest haggrest with ⟨ws', h1, h2⟩
      refine ⟨w :: ws', ?_, ?_⟩
      · rw [itemResultsFrom_cons, hr, h1]
        rfl
      · rw [itemResultsFrom_cons]
        have : sparse inner w (pushPath p (.idx n)) = .sync (.ok w) := IHfix _ _ _ hs
        rw [this, h2]
        rfl

theorem map_getField_self (l : List (String × Value)) (hnd : (l.map Prod.fst).Nodup) :
    (l.map Prod.fst).map (fun k => (k, getField l k)) = l := by
  rw [List.map_map]
  have : ∀ q ∈ l, ((fun k => (k, getField l k)) ∘ Prod.fst) q = id q := by
    intro q hq
    simp only [Function.comp_apply, id_eq]
    have : getField l q.1 = q.2 := getField_of_mem_nodup l q.1 q.2 hnd (by simpa using hq)
    rw [this]
  rw [List.map_congr_left this, List.map_id]

/-- Re-running the object composite on its own successful output (declared
fields then passthrough remainder) succeeds with the same output, given
that re-running the fields is stable. -/
theorem obj_rerun (shape : FieldSchemas) (cfg : ObjConfig) (p : JPath)
    (kws passKVs : List (String × Value)) (rem : List String)
    (hnodup : (keysF shape).Nodup)
    (hkeys : kws.map Prod.fst = keysF shape)
    (hremnd : rem.Nodup)
    (hremnot : ∀ k ∈ rem, k ∉ keysF shape)
    (hpf : passKVs.map Prod.fst = if cfg.passthrough then rem else [])
    (hstrictnil : cfg.strict = true → rem = [])
    (hstab : sparseFields shape (kws ++ passKVs) p = allValPairs kws) :
    sparse (.obj shape cfg) (.vObj (kws ++ passKVs)) p =
      .sync (.ok (.vObj (kws ++ passKVs))) := by
  have hkwsnd : (kws.map Prod.fst).Nodup := by rw [hkeys]; exact hnodup
  have hpfnd : (passKVs.map Prod.fst).Nodup := by
    rw [hpf]
    by_cases hpt : cfg.passthrough = true
    · rw [if_pos hpt]; exact hremnd
    · rw [if_neg hpt]; exact List.nodup_nil
  have hpfnot : ∀ k ∈ passKVs.map Prod.fst, k ∉ keysF shape := by
    intro k hk
    rw [hpf] at hk
    by_cases hpt : cfg.passthrough = true
    · rw [if_pos hpt] at hk; exact hremnot k hk
    · rw [if_neg hpt] at hk; simp at hk
  -- the output keys are the shape keys followed by the passthrough keys
  have houtfst : (kws ++ passKVs).map Prod.fst = keysF shape ++ passKVs.map Prod.fst := by
    rw [List.map_append, hkeys]
  have houtnd : ((kws ++ passKVs).map Prod.fst).Nodup := by
    rw [houtfst]
    refine List.Nodup.append hnodup hpfnd ?_
    intro a ha hb
    exact hpfnot a hb ha
  -- remainingKeys of the re-run: exactly the passthrough keys
  have hrem2 : objRemaining shape (kws ++ passKVs) = passKVs.map Prod.fst := by
    unfold objRemaining
    rw [dedupKeys_eq_self _ [] houtnd (by intro k _ hk; simp at hk)]
    rw [houtfst, List.filter_append]
    have h1 : (keysF shape).filter (fun k => !((keysF shape).contains k)) = [] := by
      rw [List.filter_eq_nil_iff]
      intro a ha
      rw [(list_contains_iff _ _).2 ha]
      simp
    have h2 : (passKVs.map Prod.fst).filter (fun k => !((keysF shape).contains k)) =
        passKVs.map Prod.fst := by
      rw [List.filter_eq_self]
      intro a ha
      have : (keysF shape).contains a = false := by
        rw [list_contains_false_iff]
        exact hpfnot a ha
      rw [this]
      simp
    rw [h1, h2, List.nil_append]
  -- strict issues of the re-run: none
  have hstrict2 : objStrictIssues shape cfg (kws ++ passKVs) p = [] := by
    unfold objStrictIssues
    by_cases hst : cfg.strict = true
    · rw [if_pos hst, hrem2, hpf]
      by_cases hpt : cfg.passthrough = true
      · rw [if_pos hpt, hstrictnil hst]
        rfl
      · rw [if_neg hpt]
        rfl
    · rw [if_neg hst]
  -- passthrough pairs of the re-run: unchanged
  have hpass2 : objPassKVs shape cfg (kws ++ passKVs) = passKVs := by
    unfold objPassKVs
    by_cases hpt : cfg.passthrough = true
    · rw [if_pos hpt, hrem2]
      have hgf : ∀ k ∈ passKVs.map Prod.fst,
          getField (kws ++ passKVs) k = getField passKVs k := by
        intro k hk
        refine getField_append_of_not_mem kws passKVs k ?_
        rw [hkeys]
        exact hpfnot k hk
      have : (passKVs.map Prod.fst).map (fun k => (k, getField (kws ++ passKVs) k)) =
          (passKVs.map Prod.fst).map (fun k => (k, getField passKVs k)) := by
        apply List.map_congr_left
        intro k hk
        rw [hgf k hk]
      rw [this, map_getField_self passKVs hpfnd]
    · rw [if_neg hpt]
      have : passKVs.map Prod.fst = [] := by
        rw [hpf, if_neg hpt]
      have hnil : passKVs = [] := by
        cases passKVs with
        | nil => rfl
        | cons q rest => simp at this
      rw [hnil]
  -- assemble the re-run
  have hrs : (allValPairs kws).map Prod.snd = (kws.map Prod.snd).map ItemRes.val :=
    allValPairs_map_snd kws
  have hagg2 : objAgg shape cfg (kws ++ passKVs) p = [] := by
    unfold objAgg
    rw [hstrict2, hstab, hrs, aggOf_map_val]
    rfl
  have hdisj : ∀ k ∈ passKVs.map Prod.fst, k ∉ kws.map Prod.fst := by
    intro k hk
    rw [hkeys]
    exact hpfnot k hk
  rw [sparse_obj, hstab, hpass2, buildObjOut_allval kws passKVs hkwsnd hpfnd hdisj, hrs,
    hasPend_map_val, hagg2]
  simp [wrapMP]

mutual
/-- In the transform/union-free fragment, a value returned by a successful
synchronous parse is a fixed point of its schema. -/
theorem sparse_fix : ∀ (s : Schema), tuFree s = true →
    ∀ x p v, sparse s x p = .sync (.ok v) → sparse s v p = .sync (.ok v)
  | .str cfg, _, x, p, v => by
    intro h
    cases x with
    | vStr s =>
      have h2 : strParseOutcome cfg s p = .ok v := by injection h
      rcases strParseOutcome_cases cfg s p with hc | ⟨i, hc⟩
      · rw [hc] at h2
        have hv : v = .vStr s := by
          injection h2 with h3
          exact h3.symm
        subst hv
        simp only [sparse]
        rw [hc]
      · rw [hc] at h2; exact Except.noConfusion h2
    | vNull => simp [sparse] at h
    | vUndefined => simp [sparse] at h
    | vBool b => simp [sparse] at h
    | vNum n => simp [sparse] at h
    | vArr items => simp [sparse] at h
    | vObj fields => simp [sparse] at h
  | .num cfg, _, x, p, v => by
    intro h
    have h2 : numParseOutcome cfg x p = .ok v := by injection h
    rcases numParseOutcome_cases cfg x p with ⟨n, hx, hc⟩ | ⟨i, hc⟩
    · rw [hc] at h2
      have hv : v = .vNum n := by
        injection h2 with h3
        exact h3.symm
      subst hv
      subst hx
      exact h
    · rw [hc] at h2; exact Except.noConfusion h2
  | .boolS, _, x, p, v => by
    intro h
    cases x with
    | vBool b =>
      have h2 : (.ok (.vBool b) : POutcome) = .ok v := by injection h
      have hv : v = .vBool b := by
        injection h2 with h3
        exact h3.symm
      subst hv
      exact h
    | vNull => simp [sparse] at h
    | vUndefined => simp [sparse] at h
    | vNum n => simp [sparse] at h
    | vStr s => simp [sparse] at h
    | vArr items => simp [sparse] at h
    | vObj fields => simp [sparse] at h
  | .enumS vals, _, x, p, v => by
    intro h
    cases x with
    | vStr s =>
      by_cases hm : s ∈ vals
      · rw [show sparse (.enumS vals) (.vStr s) p = .sync (.ok (.vStr s)) from by
          simp [sparse, hm]] at h
        have hv : v = .vStr s := by
          simp only [MaybeProm.sync.injEq, Except.ok.injEq] at h
          exact h.symm
        subst hv
        simp [sparse, hm]
      · simp [sparse, hm] at h
    | vNull => simp [sparse] at h
    | vUndefined => simp [sparse] at h
    | vBool b => simp [sparse] at h
    | vNum n => simp [sparse] at h
    | vArr items => simp [sparse] at h
    | vObj fields => simp [sparse] at h
  | .arr inner, htu, x, p, v => by
    have htu' : tuFree inner = true := by simpa [tuFree] using htu
    intro h
    cases x with
    | vArr items =>
      rw [sparse_arr] at h
      cases hb : hasPend (itemResults inner items p) with
      | true => rw [hb] at h; simp [wrapMP] at h
      | false =>
        rw [hb] at h
        simp only [wrapMP, Bool.false_eq_true, if_false] at h
        cases he : (aggOf (itemResults inner items p)).isEmpty with
        | false => simp [he] at h
        | true =>
          simp only [he, if_true, MaybeProm.sync.injEq, Except.ok.injEq] at h
          rcases fixItems_aux inner
              (fun x2 p2 v2 h2 => sparse_fix inner htu' x2 p2 v2 h2)
              (fun v2 p2 => sparse_no_empty_validation inner htu' v2 p2)
              items 0 p (by rw [← itemResults_eq_from]; exact hb)
              (by rw [← itemResults_eq_from]; exact he) with ⟨ws, hw1, hw2⟩
          have hv : v = .vArr ws := by
            rw [← h, itemResults_eq_from, hw1, valsOf_map_val]
          subst hv
          rw [sparse_arr, itemResults_eq_from, hw2, hasPend_map_val, aggOf_map_val,
            valsOf_map_val]
          simp [wrapMP]
    | vNull => simp [sparse] at h
    | vUndefined => simp [sparse] at h
    | vBool b => simp [sparse] at h
    | vNum n => simp [sparse] at h
    | vStr s => simp [sparse] at h
    | vObj fields => simp [sparse] at h
  | .obj shape cfg, htu, x, p, v => by
    have hparts : distinctKeys (keysF shape) = true ∧ tuFreeF shape = true := by
      simpa [tuFree, Bool.and_eq_true] using htu
    have hnodup : (keysF shape).Nodup := (distinctKeys_iff _).1 hparts.1
    intro h
    cases x with
    | vObj fields =>
      rw [sparse_obj] at h
      cases hb : hasPend ((sparseFields shape fields p).map Prod.snd) with
      | true => rw [hb] at h; simp [wrapMP] at h
      | false =>
        rw [hb] at h
        simp only [wrapMP, Bool.false_eq_true, if_false] at h
        cases he : (objAgg shape cfg fields p).isEmpty with
        | false => simp [he] at h
        | true =>
          simp only [he, if_true, MaybeProm.sync.injEq, Except.ok.injEq] at h
          have hagg : objAgg shape cfg fields p = [] := (isEmpty_iff_nil _).1 he
          unfold objAgg at hagg
          rcases List.append_eq_nil.1 hagg with ⟨hstrictnil0, haggnil⟩
          rcases sparseFields_fix shape hparts.2 fields p hb
              ((isEmpty_iff_nil _).2 haggnil) with ⟨kws, hkw1, hkw2⟩
          have hkeys : kws.map Prod.fst = keysF shape := by
            have h2 := sparseFields_map_fst shape fields p
            rw [hkw1, allValPairs_map_fst] at h2
            exact h2
          have hkwsnd : (kws.map Prod.fst).Nodup := by rw [hkeys]; exact hnodup
          have hremnd : (objRemaining shape fields).Nodup := by
            unfold objRemaining
            exact (dedupKeys_nodup _ []).filter _
          have hremnot : ∀ k ∈ objRemaining shape fields, k ∉ keysF shape := by
            intro k hk
            unfold objRemaining at hk
            have h2 := (List.mem_filter.1 hk).2
            rw [Bool.not_eq_true'] at h2
            exact (list_contains_false_iff _ _).1 h2
          have hpf : (objPassKVs shape cfg fields).map Prod.fst =
              if cfg.passthrough then objRemaining shape fields else [] := by
            unfold objPassKVs
            by_cases hpt : cfg.passthrough = true
            · rw [if_pos hpt, if_pos hpt, List.map_map]
              have hcomp : (Prod.fst ∘ fun k => (k, getField fields k)) = id := by
                funext k
                rfl
              rw [hcomp, List.map_id]
            · rw [if_neg hpt, if_neg hpt]
              rfl
          have hstrictnil : cfg.strict = true → objRemaining shape fields = [] := by
            intro hst
            unfold objStrictIssues at hstrictnil0
            rw [if_pos hst] at hstrictnil0
            exact List.map_eq_nil_iff.1 hstrictnil0
          have hpfnd : ((objPassKVs shape cfg fields).map Prod.fst).Nodup := by
            rw [hpf]
            by_cases hpt : cfg.passthrough = true
            · rw [if_pos hpt]; exact hremnd
            · rw [if_neg hpt]; exact List.nodup_nil
          have hdisj : ∀ k ∈ (objPassKVs shape cfg fields).map Prod.fst,
              k ∉ kws.map Prod.fst := by
            intro k hk
            rw [hkeys]
            rw [hpf] at hk
            by_cases hpt : cfg.passthrough = true
            · rw [if_pos hpt] at hk; exact hremnot k hk
            · rw [if_neg hpt] at hk; simp at hk
          have hout : buildObjOut (sparseFields shape fields p) (objPassKVs shape cfg fields)
              = kws ++ objPassKVs shape cfg fields := by
            rw [hkw1]
            exact buildObjOut_allval _ _ hkwsnd hpfnd hdisj
          have hv : v = .vObj (kws ++ objPassKVs shape cfg fields) := by
            rw [← h, hout]
          subst hv
          have hstab : sparseFields shape (kws ++ objPassKVs shape cfg fields) p
              = allValPairs kws := by
            apply hkw2
            intro q hq
            exact getField_append_of_mem kws _ q.1 q.2 hkwsnd (by simpa using hq)
          exact obj_rerun shape cfg p kws (objPassKVs shape cfg fields)
            (objRemaining shape fields) hnodup hkeys hremnd hremnot hpf hstrictnil hstab
    | vNull => simp [sparse] at h
    | vUndefined => simp [sparse] at h
    | vBool b => simp [sparse] at h
    | vNum n => simp [sparse] at h
    | vStr s => simp [sparse] at h
    | vArr items => simp [sparse] at h
  | .union cands, htu, x, p, v => absurd htu (by simp [tuFree])
  | .optionalW inner, htu, x, p, v => by
    have htu' : tuFree inner = true := by simpa [tuFree] using htu
    intro h
    cases x with
    | vUndefined =>
      have hv : v = .vUndefined := by
        simp only [sparse, MaybeProm.sync.injEq, Except.ok.injEq] at h
        exact h.symm
      subst hv
      simp [sparse]
    | vNull =>
      cases v with
      | vUndefined => simp [sparse]
      | vNull => exact sparse_fix inner htu' _ p _ h
      | vBool b => exact sparse_fix inner htu' _ p _ h
      | vNum n => exact sparse_fix inner htu' _ p _ h
      | vStr s => exact sparse_fix inner htu' _ p _ h
      | vArr items => exact sparse_fix inner htu' _ p _ h
      | vObj fields => exact sparse_fix inner htu' _ p _ h
    | vBool b =>
      cases v with
      | vUndefined => simp [sparse]
      | vNull => exact sparse_fix inner htu' _ p _ h
      | vBool b2 => exact sparse_fix inner htu' _ p _ h
      | vNum n => exact sparse_fix inner htu' _ p _ h
      | vStr s => exact sparse_fix inner htu' _ p _ h
      | vArr items => exact sparse_fix inner htu' _ p _ h
      | vObj fields => exact sparse_fix inner htu' _ p _ h
    | vNum n =>
      cases v with
      | vUndefined => simp [sparse]
      | vNull => exact sparse_fix inner htu' _ p _ h
      | vBool b => exact sparse_fix inner htu' _ p _ h
      | vNum n2 => exact sparse_fix inner htu' _ p _ h
      | vStr s => exact sparse_fix inner htu' _ p _ h
      | vArr items => exact sparse_fix inner htu' _ p _ h
      | vObj fields => exact sparse_fix inner htu' _ p _ h
    | vStr s =>
      cases v with
      | vUndefined => simp [sparse]
      | vNull => exact sparse_fix inner htu' _ p _ h
      | vBool b => exact sparse_fix inner htu' _ p _ h
      | vNum n => exact sparse_fix inner htu' _ p _ h
      | vStr s2 => exact sparse_fix inner htu' _ p _ h
      | vArr items => exact sparse_fix inner htu' _ p _ h
      | vObj fields => exact sparse_fix inner htu' _ p _ h
    | vArr items =>
      cases v with
      | vUndefined => simp [sparse]
      | vNull => exact sparse_fix inner htu' _ p _ h
      | vBool b => exact sparse_fix inner htu' _ p _ h
      | vNum n => exact sparse_fix inner htu' _ p _ h
      | vStr s => exact sparse_fix inner htu' _ p _ h
      | vArr items2 => exact sparse_fix inner htu' _ p _ h
      | vObj fields => exact sparse_fix inner htu' _ p _ h
    | vObj fields =>
      cases v with
      | vUndefined => simp [sparse]
      | vNull => exact sparse_fix inner htu' _ p _ h
      | vBool b => exact sparse_fix inner htu' _ p _ h
      | vNum n => exact sparse_fix inner htu' _ p _ h
      | vStr s => exact sparse_fix inner htu' _ p _ h
      | vArr items => exact sparse_fix inner htu' _ p _ h
      | vObj fields2 => exact sparse_fix inner htu' _ p _ h
  | .nullableW inner, htu, x, p, v => by
    have htu' : tuFree inner = true := by simpa [tuFree] using htu
    intro h
    by_cases hx : x = .vNull
    · subst hx
      have hv : v = .vNull := by
        simp only [sparse, MaybeProm.sync.injEq, Except.ok.injEq] at h
        exact h.symm
      subst hv
      simp [sparse]
    · have h2 : sparse inner x p = .sync (.ok v) := by
        cases x with
        | vNull => exact absurd rfl hx
        | vUndefined => exact h
        | vBool b => exact h
        | vNum n => exact h
        | vStr s => exact h
        | vArr items => exact h
        | vObj fields => exact h
      have h3 := sparse_fix inner htu' _ p _ h2
      cases v with
      | vNull => simp [sparse]
      | vUndefined => exact h3
      | vBool b => exact h3
      | vNum n => exact h3
      | vStr s => exact h3
      | vArr items => exact h3
      | vObj fields => exact h3
  | .nullishW inner, htu, x, p, v => by
    have htu' : tuFree inner = true := by simpa [tuFree] using htu
    intro h
    by_cases hx1 : x = .vNull
    · subst hx1
      have hv : v = .vNull := by
        simp only [sparse, MaybeProm.sync.injEq, Except.ok.injEq] at h
        exact h.symm
      subst hv
      simp [sparse]
    · by_cases hx2 : x = .vUndefined
      · subst hx2
        have hv : v = .vUndefined := by
          simp only [sparse, MaybeProm.sync.injEq, Except.ok.injEq] at h
          exact h.symm
        subst hv
        simp [sparse]
      · have h2 : sparse inner x p = .sync (.ok v) := by
          cases x with
          | vNull => exact absurd rfl hx1
          | vUndefined => exact absurd rfl hx2
          | vBool b => exact h
          | vNum n => exact h
          | vStr s => exact h
          | vArr items => exact h
          | vObj fields => exact h
        have h3 := sparse_fix inner htu' _ p _ h2
        cases v with
        | vNull => simp [sparse]
        | vUndefined => simp [sparse]
        | vBool b => exact h3
        | vNum n => exact h3
        | vStr s => exact h3
        | vArr items => exact h3
        | vObj fields => exact h3
  | .defaultW inner src, htu, x, p, v => by
    have htu' : tuFree inner = true := by simpa [tuFree] using htu
    intro h
    by_cases hx : x = .vUndefined
    · subst hx
      have h2 : (match resolveDefault src with
          | .sync (.ok d) => sparse inner d p
          | .sync (.error e) => MaybeProm.sync (.error e)
          | .async (.ok d) => asAsync (sparse inner d p)
          | .async (.error e) => MaybeProm.async (.error e)) = .sync (.ok v) := h
      cases hres : resolveDefault src with
      | sync o =>
        cases o with
        | ok d =>
          rw [hres] at h2
          have h3 := sparse_fix inner htu' _ p _ h2
          cases v with
          | vUndefined =>
            show (match resolveDefault src with
              | .sync (.ok d) => sparse inner d p
              | .sync (.error e) => MaybeProm.sync (.error e)
              | .async (.ok d) => asAsync (sparse inner d p)
              | .async (.error e) => MaybeProm.async (.error e)) = .sync (.ok .vUndefined)
            rw [hres]
            exact h2
          | vNull => exact h3
          | vBool b => exact h3
          | vNum n => exact h3
          | vStr s => exact h3
          | vArr items => exact h3
          | vObj fields => exact h3
        | error e =>
          rw [hres] at h2
          exact absurd h2 (by simp)
      | async o =>
        cases o with
        | ok d =>
          rw [hres] at h2
          exact absurd h2 (asAsync_ne_sync _ _)
        | error e =>
          rw [hres] at h2
          exact absurd h2 (by simp)
    · have h2 : sparse inner x p = .sync (.ok v) := by
        cases x with
        | vUndefined => exact absurd rfl hx
        | vNull => exact h
        | vBool b => exact h
        | vNum n => exact h
        | vStr s => exact h
        | vArr items => exact h
        | vObj fields => exact h
      have h3 := sparse_fix inner htu' _ p _ h2
      cases v with
      | vUndefined => exact absurd (sparse_undef_out inner htu' x p h2) hx
      | vNull => exact h3
      | vBool b => exact h3
      | vNum n => exact h3
      | vStr s => exact h3
      | vArr items => exact h3
      | vObj fields => exact h3
  | .refineW inner pred msg, htu, x, p, v => by
    have htu' : tuFree inner = true := by simpa [tuFree] using htu
    intro h
    simp only [sparse] at h
    cases hi : sparse inner x p with
    | sync o =>
      cases o with
      | ok w =>
        rw [hi] at h
        rcases refineStep_sync_ok pred msg w p v h with ⟨hv, hp⟩
        subst hv
        have h3 := sparse_fix inner htu' _ p _ hi
        simp only [sparse]
        rw [h3]
        simp only [refineStep, hp, if_true]
      | error e => rw [hi] at h; simp at h
    | async o =>
      cases o with
      | ok w =>
        rw [hi] at h
        exact absurd h (asAsync_ne_sync _ _)
      | error e => rw [hi] at h; simp at h
  | .transformW inner fn, htu, x, p, v => absurd htu (by simp [tuFree])
termination_by structural s => s

/-- Companion for the object fields: when every declared field parsed
synchronously with no issues, the field results are all successes, and the
field loop is stable on any record agreeing with the parsed values. -/
theorem sparseFields_fix : ∀ (fs : FieldSchemas), tuFreeF fs = true →
    ∀ (record : List (String × Value)) (p : JPath),
      hasPend ((sparseFields fs record p).map Prod.snd) = false →
      (aggOf ((sparseFields fs record p).map Prod.snd)).isEmpty = true →
      ∃ kws : List (String × Value),
        sparseFields fs record p = allValPairs kws ∧
        ∀ record2, (∀ q ∈ kws, getField record2 q.1 = q.2) →
          sparseFields fs record2 p = allValPairs kws
  | .nil, _, record, p => by
    intro _ _
    exact ⟨[], rfl, fun _ _ => rfl⟩
  | .cons k s rest, htu, record, p => by
    have hparts : tuFree s = true ∧ tuFreeF rest = true := by
      simpa [tuFreeF, Bool.and_eq_true] using htu
    intro hpend hagg
    simp only [sparseFields, List.map_cons] at hpend hagg
    have hpend2 := hpend
    rw [hasPend_cons, Bool.or_eq_false_iff] at hpend2
    rcases aggOf_cons_empty _ _ hagg with ⟨hsent, _, haggrest⟩
    cases hr : classify (sparse s (getField record k) (pushPath p (.str k))) with
    | pend o => rw [hr] at hpend2; simp at hpend2
    | sent iss =>
      rw [hr] at hsent
      simp only at hsent
      subst hsent
      rcases (classify_eq_sent _ _).1 hr with ⟨e, he, hiss⟩
      rw [errToIssues_eq_nil] at hiss
      subst hiss
      exact absurd he (sparse_no_empty_validation s hparts.1 _ _)
    | val w =>
      have hs : sparse s (getField record k) (pushPath p (.str k)) = .sync (.ok w) :=
        (classify_eq_val _ _).1 hr
      have hpendrest : hasPend ((sparseFields rest record p).map Prod.snd) = false := by
        rw [hr] at hpend2; exact hpend2.2
      have haggrest2 : (aggOf ((sparseFields rest record p).map Prod.snd)).isEmpty = true :=
        haggrest
      rcases sparseFields_fix rest hparts.2 record p hpendrest haggrest2 with ⟨kws', h1, h2⟩
      refine ⟨(k, w) :: kws', ?_, ?_⟩
      · simp only [sparseFields, hr, h1]
        rfl
      · intro record2 hq
        have hgf : getField record2 k = w := hq (k, w) (List.mem_cons_self _ _)
        have hsw : sparse s (getField record2 k) (pushPath p (.str k)) = .sync (.ok w) := by
          rw [hgf]
          exact sparse_fix s hparts.1 _ _ _ hs
        simp only [sparseFields, hsw]
        rw [h2 record2 (fun q hq2 => hq q (List.mem_cons_of_mem _ hq2))]
        rfl
termination_by structural fs => fs
end

theorem settleMP_wrapMP (b : Bool) (o : POutcome) : settleMP (wrapMP b o) = o := by
  cases b <;> simp [settleMP, wrapMP]

/-- The first candidate that parses to a synchronous success is returned
immediately, whatever the remaining candidates are. -/
theorem sparseUnion_first_sync_success (c : Schema) (rest : Schemas) (v : Value) (p : JPath)
    (agg : List Issue) (pendings : List POutcome) (w : Value)
    (h : sparse c v p = .sync (.ok w)) :
    sparseUnion (.cons c rest) v p agg pendings = .sync (.ok w) := by
  simp only [sparseUnion]
  rw [h]

/-- When every candidate fails synchronously with an aggregate, the union
throws the aggregate holding all candidate issues, in candidate order. -/
theorem sparseUnion_allfail : ∀ (cs : Schemas) (errss : List (List Issue)) (v : Value)
    (p : JPath) (agg : List Issue),
    List.Forall₂ (fun s iss => sparse s v p = .sync (.error (.validation iss)))
      cs.toList errss →
    sparseUnion cs v p agg [] = .sync (.error (.validation (agg ++ errss.flatten)))
  | .nil, errss, v, p, agg => by
    intro hf
    simp only [Schemas.toList] at hf
    cases hf
    simp [sparseUnion]
  | .cons c rest, errss, v, p, agg => by
    intro hf
    simp only [Schemas.toList] at hf
    cases hf with
    | cons hc hrest =>
      rename_i iss errss2
      have hstep : sparseUnion (.cons c rest) v p agg [] =
          sparseUnion rest v p (vmerge agg (.validation iss)) [] := by
        simp only [sparseUnion, hc]
      rw [hstep, sparseUnion_allfail rest errss2 v p _ hrest]
      simp [vmerge, errToIssues, List.append_assoc]
termination_by structural cs => cs

/-- Refining schema with an always-true asynchronous predicate (used as a
pending-producing candidate in examples). -/
def asyncTrueRefine : Schema := .refineW sString (fun _ => .async (.ok true)) none

/-- A transform appending an exclamation mark to a parsed string. -/
def bangTransform : Schema :=
  .transformW sString (fun v =>
    match v with
    | .vStr s => .sync (.ok (.vStr (s ++ "!")))
    | v => .sync (.ok v))

/-- A strict object schema with one optional declared field. -/
def strictOptObj : Schema := .obj (.cons "b" (.optionalW sNumber) .nil) ⟨false, true⟩

/-- The empty object schema in default mode. -/
def emptyObj : Schema := .obj .nil ⟨false, false⟩

/-- A union whose first candidate is `strictOptObj` and second `emptyObj`. -/
def reorderUnion : Schema := .union (.cons strictOptObj (.cons emptyObj .nil))

/-- A default wrapper whose supplier throws a plain (non-aggregate) error. -/
def throwingDefaultNum : Schema :=
  .defaultW sNumber (.fn (fun _ => .sync (.error ⟨some "boom", "Error: boom"⟩)))

/-- C1: for every schema and every input, `safeParse` returns either a
success carrying the parsed data or a failure carrying a `ValidationError`
aggregate, and never raises (in this embedding `safeParse` is a total
function into the result sum); a raised error that is not an aggregate is
normalized into a one-issue aggregate with code `custom` at the root
(empty) path, with the error's message (or the fallback text). -/
theorem claim1_safeParse_total_and_normalizing (s : Schema) (v : Value) :
    (∃ d, parseE s v = .ok d ∧ safeParse s v = .ok d) ∨
    (∃ iss, parseE s v = .error (.validation iss) ∧ safeParse s v = .error iss) ∨
    (∃ e, parseE s v = .error e ∧ (∀ iss, e ≠ .validation iss) ∧
      safeParse s v = .error [⟨[], .custom, e.msgOpt.getD "Unknown error"⟩]) := by
  cases hp : parseE s v with
  | ok d =>
    refine Or.inl ⟨d, rfl, ?_⟩
    simp [safeParse, hp]
  | error e =>
    cases e with
    | validation iss =>
      refine Or.inr (Or.inl ⟨iss, rfl, ?_⟩)
      simp [safeParse, hp, makeSafeResultError]
    | asyncParse =>
      refine Or.inr (Or.inr ⟨.asyncParse, rfl, fun iss h => JsError.noConfusion h, ?_⟩)
      simp [safeParse, hp, makeSafeResultError]
    | other m r =>
      refine Or.inr (Or.inr ⟨.other m r, rfl, fun iss h => JsError.noConfusion h, ?_⟩)
      simp [safeParse, hp, makeSafeResultError]

/-- C2 counterexample: a non-aggregate child failure merged by the array
composite is recorded at the root (empty) path, not at the current
element path `[0]`: the claim's "at the current validation path" fails. -/
theorem claim2_cex :
    safeParse (.arr throwingDefaultNum) (.vArr [.vUndefined]) = .error [⟨[], .custom, "boom"⟩] ∧
    ([] : JPath) ≠ [.idx 0] := by
  refine ⟨rfl, ?_⟩
  simp

/-- C2 (amended): merging an aggregate appends its issues in order;
merging a non-aggregate failure converts it to a single `custom` issue at
the root (empty) path — not the current validation path — before
appending. -/
theorem claim2_merge_amended :
    (∀ (agg iss : List Issue), vmerge agg (.validation iss) = agg ++ iss) ∧
    (∀ (agg : List Issue) (e : JsError), (∀ iss, e ≠ .validation iss) →
      vmerge agg e = agg ++ [⟨[], .custom, e.msgOrRep⟩]) := by
  constructor
  · intro agg iss
    rfl
  · intro agg e he
    cases e with
    | validation iss => exact absurd rfl (he iss)
    | asyncParse => rfl
    | other m r => rfl

theorem claim2_merge_amended_witness :
    vmerge [] .asyncParse =
      [⟨[], .custom, "Encountered async validations; use parseAsync()"⟩] :=
  claim2_merge_amended.2 [] .asyncParse (fun _ h => JsError.noConfusion h)

/-- C3: the array validator validates every element (one result per
element), accumulates the issues of all failing elements — on
`[1, "x", 3, "y"]` with a number element schema it fails with exactly the
two `invalid_type` issues at paths `[1]` and `[3]` — and rejects any
non-array input with a single `invalid_array` issue at the current path. -/
theorem claim3_array_aggregation :
    safeParse (.arr sNumber)
        (.vArr [.vNum (.finite 1), .vStr "x", .vNum (.finite 3), .vStr "y"])
      = .error [⟨[.idx 1], .invalid_type, "Expected number"⟩,
                ⟨[.idx 3], .invalid_type, "Expected number"⟩] ∧
    (∀ (inner : Schema) (items : List Value) (p : JPath),
      (itemResults inner items p).length = items.length) ∧
    (∀ (inner : Schema) (v : Value) (p : JPath), isArrayV v = false →
      sparse (.arr inner) v p =
        .sync (.error (.validation [⟨p, .invalid_array, "Expected array"⟩]))) := by
  refine ⟨rfl, ?_, ?_⟩
  · intro inner items p
    simp [itemResults, itemResultsFrom]
  · intro inner v p hv
    cases v with
    | vArr items => simp [isArrayV] at hv
    | vNull => rfl
    | vUndefined => rfl
    | vBool b => rfl
    | vNum n => rfl
    | vStr s => rfl
    | vObj fields => rfl

theorem claim3_array_aggregation_witness :
    isArrayV (.vBool true) = false ∧
    sparse (.arr sNumber) (.vBool true) [] =
      .sync (.error (.validation [⟨[], .invalid_array, "Expected array"⟩])) :=
  ⟨rfl, claim3_array_aggregation.2.2 sNumber (.vBool true) [] rfl⟩

/-- C4: on shape `{a: number()}` and input `{a:1, b:2}`, strict mode fails
with exactly one `unrecognized_keys` issue at path `["b"]`, passthrough
succeeds copying the unknown key verbatim, and default mode succeeds
silently dropping it. -/
theorem claim4_object_modes :
    safeParse (.obj (.cons "a" sNumber .nil) ⟨false, true⟩)
        (.vObj [("a", .vNum (.finite 1)), ("b", .vNum (.finite 2))])
      = .error [⟨[.str "b"], .unrecognized_keys,
                 "Unrecognized key: " ++ squote ++ "b" ++ squote⟩] ∧
    safeParse (.obj (.cons "a" sNumber .nil) ⟨true, false⟩)
        (.vObj [("a", .vNum (.finite 1)), ("b", .vNum (.finite 2))])
      = .ok (.vObj [("a", .vNum (.finite 1)), ("b", .vNum (.finite 2))]) ∧
    safeParse (.obj (.cons "a" sNumber .nil) ⟨false, false⟩)
        (.vObj [("a", .vNum (.finite 1)), ("b", .vNum (.finite 2))])
      = .ok (.vObj [("a", .vNum (.finite 1))]) :=
  ⟨rfl, rfl, rfl⟩

/-- C5: union tries candidates in declaration order at the same path; the
first synchronous success is returned without touching the remaining
candidates; if all candidates fail synchronously the union throws the
aggregate of all their issues in order.  Concretely,
`union([string, number])` accepts `5` and rejects `true` with the two
merged `invalid_type` issues. -/
theorem claim5_union_behavior :
    safeParse (.union (.cons sString (.cons sNumber .nil))) (.vNum (.finite 5))
      = .ok (.vNum (.finite 5)) ∧
    safeParse (.union (.cons sString (.cons sNumber .nil))) (.vBool true)
      = .error [⟨[], .invalid_type, "Expected string"⟩,
                ⟨[], .invalid_type, "Expected number"⟩] ∧
    (∀ (c : Schema) (rest : Schemas) (v : Value) (p : JPath) (agg : List Issue)
        (pendings : List POutcome) (w : Value), sparse c v p = .sync (.ok w) →
      sparseUnion (.cons c rest) v p agg pendings = .sync (.ok w)) ∧
    (∀ (cands : Schemas) (errss : List (List Issue)) (v : Value) (p : JPath),
      List.Forall₂ (fun s iss => sparse s v p = .sync (.error (.validation iss)))
        cands.toList errss →
      sparse (.union cands) v p = .sync (.error (.validation errss.flatten))) := by
  refine ⟨rfl, rfl, ?_, ?_⟩
  · intro c rest v p agg pendings w h
    exact sparseUnion_first_sync_success c rest v p agg pendings w h
  · intro cands errss v p hf
    exact sparseUnion_allfail cands errss v p [] hf

theorem claim5_union_behavior_witness :
    sparseUnion (.cons sNumber (.cons sString .nil)) (.vNum (.finite 5)) [] [] []
      = .sync (.ok (.vNum (.finite 5))) :=
  claim5_union_behavior.2.2.1 sNumber (.cons sString .nil) (.vNum (.finite 5)) [] [] []
    (.vNum (.finite 5)) rfl

/-- C6 counterexample: a union whose first candidate yields a pending
computation (an async refine) but whose second candidate succeeds
synchronously: the subtree produced a pending computation, yet `parse`
returns the value instead of raising `AsyncParseError`, refuting the
claim's "anywhere in its subtree" direction. -/
theorem claim6_cex :
    sparse asyncTrueRefine (.vStr "a") [] = .async (.ok (.vStr "a")) ∧
    parseE (.union (.cons asyncTrueRefine (.cons sString .nil))) (.vStr "a")
      = .ok (.vStr "a") :=
  ⟨rfl, rfl⟩

/-- C6 (amended): `parse` raises `AsyncParseError` exactly when the root
validation result is a pending computation (a pending candidate inside a
union is discarded when a later candidate succeeds synchronously);
otherwise it returns the value or propagates the error, and `parseAsync`
always resolves or rejects with the settled underlying result. -/
theorem claim6_async_signal_amended (s : Schema) (v : Value) :
    ((parseE s v = .error .asyncParse) ↔ (∃ o, sparse s v [] = .async o)) ∧
    parseAsyncE s v = settleMP (sparse s v []) ∧
    (∀ o, sparse s v [] = .sync o → parseE s v = o) := by
  refine ⟨⟨?_, ?_⟩, ?_, ?_⟩
  · intro h
    cases hs : sparse s v [] with
    | sync o =>
      have hpe : parseE s v = o := by simp [parseE, hs]
      rw [hpe] at h
      subst h
      exact absurd hs (sparse_no_sync_asyncParse s v [])
    | async o => exact ⟨o, rfl⟩
  · rintro ⟨o, ho⟩
    simp [parseE, ho]
  · cases hs : sparse s v [] with
    | sync o => simp [parseAsyncE, settleMP, hs]
    | async o => simp [parseAsyncE, settleMP, hs]
  · intro o ho
    simp [parseE, ho]

theorem claim6_async_signal_amended_witness :
    parseE .boolS (.vBool true) = .ok (.vBool true) :=
  (claim6_async_signal_amended .boolS (.vBool true)).2.2 (.ok (.vBool true)) rfl

/-- C7 counterexample: validated values are not fixed points in general.
A transform schema maps `"a"` to `"a!"`, but re-parsing `"a!"` yields the
different value `"a!!"`; and a union can succeed on its own previous
output with a different value (a strict object with an optional field
failing on the first input but succeeding on the second run's `{}` output
with `{b: undefined}`). -/
theorem claim7_cex :
    parseE bangTransform (.vStr "a") = .ok (.vStr "a!") ∧
    parseE bangTransform (.vStr "a!") = .ok (.vStr "a!!") ∧
    Value.vStr "a!!" ≠ .vStr "a!" ∧
    parseE reorderUnion (.vObj [("a", .vNum (.finite 1))]) = .ok (.vObj []) ∧
    parseE reorderUnion (.vObj []) = .ok (.vObj [("b", .vUndefined)]) ∧
    Value.vObj [("b", .vUndefined)] ≠ .vObj [] := by
  refine ⟨rfl, rfl, ?_, rfl, rfl, ?_⟩
  · intro h
    injection h with h2
    exact absurd h2 (by decide)
  · intro h
    injection h with h2
    simp at h2

/-- C7 (amended): for every schema containing neither a transform wrapper
nor a union (and with well-formed object shapes), a value returned by a
successful `parse` is a fixed point: re-running `parse` on it succeeds
and returns an equal value. -/
theorem claim7_idempotence_amended (s : Schema) (h : tuFree s = true) (x v : Value)
    (hp : parseE s x = .ok v) : parseE s v = .ok v := by
  have h2 : sparse s x [] = .sync (.ok v) := by
    unfold parseE at hp
    cases hs : sparse s x [] with
    | sync o =>
      rw [hs] at hp
      have ho : o = .ok v := hp
      rw [ho]
    | async o =>
      rw [hs] at hp
      have ho : (Except.error .asyncParse : POutcome) = .ok v := hp
      exact absurd ho (by simp)
  have h3 := sparse_fix s h x [] v h2
  unfold parseE
  rw [h3]

theorem claim7_idempotence_amended_witness :
    tuFree (.optionalW sNumber) = true ∧
    parseE (.optionalW sNumber) (.vNum (.finite 5)) = .ok (.vNum (.finite 5)) :=
  ⟨rfl, claim7_idempotence_amended (.optionalW sNumber) rfl (.vNum (.finite 5))
    (.vNum (.finite 5)) rfl⟩

/-- C8: `number()` rejects `NaN` with a single `invalid_type` issue even
though `NaN` has the number type, and accepts both infinities, returning
the input unchanged. -/
theorem claim8_number_nan_infinity :
    safeParse sNumber (.vNum .nan) = .error [⟨[], .invalid_type, "Expected number"⟩] ∧
    safeParse sNumber (.vNum .inf) = .ok (.vNum .inf) ∧
    safeParse sNumber (.vNum .negInf) = .ok (.vNum .negInf) :=
  ⟨rfl, rfl, rfl⟩

/-- C9 counterexample: an element failure whose aggregate carries zero
issues (an empty union throws `new ValidationError()` with no issues) is
merged without contributing any issue, so the array composite succeeds and
silently drops the element — a partial result is exposed even though the
element's validation failed. -/
theorem claim9_cex :
    sparse (.union .nil) (.vNum (.finite 1)) [.idx 0] = .sync (.error (.validation [])) ∧
    safeParse (.arr (.union .nil)) (.vArr [.vNum (.finite 1)]) = .ok (.vArr []) ∧
    Value.vArr [] ≠ .vArr [.vNum (.finite 1)] := by
  refine ⟨rfl, rfl, ?_⟩
  intro h
  injection h with h2
  simp at h2

/-- C9 (amended): the array and object composites evaluate every child,
merge child failures into their own aggregate, and return a value exactly
when the aggregate holds zero issues, raising the aggregate otherwise —
but a child failure carrying an empty aggregate contributes no issue, so
such children are dropped from a successful output. -/
theorem claim9_composite_aggregate_amended :
    (∀ (inner : Schema) (items : List Value) (p : JPath) (out : Value),
      settleMP (sparse (.arr inner) (.vArr items) p) = .ok out →
      aggOf (itemResults inner items p) = [] ∧
      out = .vArr (valsOf (itemResults inner items p))) ∧
    (∀ (inner : Schema) (items : List Value) (p : JPath),
      aggOf (itemResults inner items p) ≠ [] →
      settleMP (sparse (.arr inner) (.vArr items) p) =
        .error (.validation (aggOf (itemResults inner items p)))) ∧
    (∀ (shape : FieldSchemas) (cfg : ObjConfig) (fields : List (String × Value))
        (p : JPath) (out : Value),
      settleMP (sparse (.obj shape cfg) (.vObj fields) p) = .ok out →
      objAgg shape cfg fields p = [] ∧
      out = .vObj (buildObjOut (sparseFields shape fields p) (objPassKVs shape cfg fields))) ∧
    (∀ (shape : FieldSchemas) (cfg : ObjConfig) (fields : List (String × Value)) (p : JPath),
      objAgg shape cfg fields p ≠ [] →
      settleMP (sparse (.obj shape cfg) (.vObj fields) p) =
        .error (.validation (objAgg shape cfg fields p))) ∧
    (∀ (inner : Schema) (items : List Value) (p : JPath),
      (itemResults inner items p).length = items.length) := by
  refine ⟨?_, ?_, ?_, ?_, ?_⟩
  · intro inner items p out h
    rw [sparse_arr, settleMP_wrapMP] at h
    cases he : (aggOf (itemResults inner items p)).isEmpty with
    | true =>
      rw [he, if_pos rfl] at h
      exact ⟨(isEmpty_iff_nil _).1 he, (Except.ok.inj h).symm⟩
    | false =>
      rw [he] at h
      simp at h
  · intro inner items p hne
    rw [sparse_arr, settleMP_wrapMP]
    have he : (aggOf (itemResults inner items p)).isEmpty = false := by
      rw [← Bool.not_eq_true, isEmpty_iff_nil]
      exact hne
    rw [he]
    simp
  · intro shape cfg fields p out h
    rw [sparse_obj, settleMP_wrapMP] at h
    cases he : (objAgg shape cfg fields p).isEmpty with
    | true =>
      rw [he, if_pos rfl] at h
      exact ⟨(isEmpty_iff_nil _).1 he, (Except.ok.inj h).symm⟩
    | false =>
      rw [he] at h
      simp at h
  · intro shape cfg fields p hne
    rw [sparse_obj, settleMP_wrapMP]
    have he : (objAgg shape cfg fields p).isEmpty = false := by
      rw [← Bool.not_eq_true, isEmpty_iff_nil]
      exact hne
    rw [he]
    simp
  · intro inner items p
    simp [itemResults, itemResultsFrom]

theorem claim9_composite_aggregate_amended_witness :
    settleMP (sparse (.arr sNumber) (.vArr [.vStr "x"]) []) =
      .error (.validation [⟨[.idx 0], .invalid_type, "Expected number"⟩]) :=
  claim9_composite_aggregate_amended.2.1 sNumber [.vStr "x"] [] (by simp [itemResults,
    itemResultsFrom, aggOf, syncIssuesOf, asyncIssuesOf, classify, sparse, numParseOutcome,
    errToIssues, firstIssue, pushPath])

/-- C10 counterexample: a declared field wrapped optional whose key is
absent from the input parses to `undefined`, and `buildOutput` then stores
that `undefined` under the key — the output contains the key (with value
`undefined`); it is not "an output without that key". -/
theorem claim10_cex :
    safeParse (.obj (partialFields (.cons "a" sNumber .nil)) ⟨false, false⟩) (.vObj [])
      = .ok (.vObj [("a", .vUndefined)]) ∧
    Value.vObj [("a", .vUndefined)] ≠ .vObj [] := by
  refine ⟨rfl, ?_⟩
  intro h
  injection h with h2
  simp at h2

/-- C10 (amended): a declared field absent from the input object is
validated exactly as if it were present with the value `undefined`, at the
path extended by the field name; a missing required field therefore fails
with that schema's undefined-handling behavior, and a field wrapped
optional (e.g. via `partial()`) accepts the absence — the output then
contains that key with value `undefined`. -/
theorem claim10_absent_fields_amended :
    (∀ (k : String) (s : Schema) (rest : FieldSchemas) (record : List (String × Value))
        (p : JPath),
      record.find? (fun q => q.1 == k) = none →
      sparseFields (.cons k s rest) record p =
        (k, classify (sparse s .vUndefined (pushPath p (.str k)))) :: sparseFields rest record p) ∧
    safeParse (.obj (.cons "a" sNumber .nil) ⟨false, false⟩) (.vObj [])
      = .error [⟨[.str "a"], .invalid_type, "Expected number"⟩] ∧
    safeParse (.obj (partialFields (.cons "a" sNumber .nil)) ⟨false, false⟩) (.vObj [])
      = .ok (.vObj [("a", .vUndefined)]) := by
  refine ⟨?_, rfl, rfl⟩
  intro k s rest record p habsent
  have hgf : getField record k = .vUndefined := by
    unfold getField
    rw [habsent]
  simp only [sparseFields, hgf]

theorem claim10_absent_fields_amended_witness :
    sparseFields (.cons "a" sNumber .nil) [] [] =
      [("a", classify (sparse sNumber .vUndefined (pushPath [] (.str "a"))))] :=
  claim10_absent_fields_amended.1 "a" sNumber .nil [] [] rfl
